import Mathlib

/-!
Verification of the constrained shortest-path engine of `day17.rs`
(`Grid::shortest_path`): a uniform-cost (Dijkstra) search over the expanded
state space (position, direction, streak) with minimum/maximum streak
constraints.  The definitions below are a shallow embedding of the Rust
source; `u8`/`u32` quantities are modelled as `Nat`, `i32` coordinates as
`Int`, the `HashMap` of best costs as an association list, and the
`BinaryHeap` (a min-priority queue under the reversed cost order of
`impl Ord for State`) as a list from which a minimal-cost element is popped.
-/

set_option linter.unusedVariables false

namespace Day17

/-- The four cardinal directions (`enum Direction` in day17.rs). -/
inductive Direction where
  | Up
  | Down
  | Left
  | Right
deriving DecidableEq, Repr

/-- `Direction::opposite`. -/
def Direction.opposite : Direction → Direction
  | .Up => .Down
  | .Down => .Up
  | .Left => .Right
  | .Right => .Left

/-- `Direction::next`: the coordinate one step away in the direction
(x grows to the right, y grows downwards). -/
def Direction.next : Direction → Int × Int → Int × Int
  | .Up, (x, y) => (x, y - 1)
  | .Down, (x, y) => (x, y + 1)
  | .Left, (x, y) => (x - 1, y)
  | .Right, (x, y) => (x + 1, y)

/-- `struct Grid { points: Vec<Vec<u8>> }`. -/
structure Grid where
  points : List (List Nat)
deriving DecidableEq, Repr

/-- Width used by `Grid::contains`:
`self.points.first().map(|line| line.len()).unwrap_or_default()`. -/
def Grid.width (g : Grid) : Nat :=
  (g.points.head?.map List.length).getD 0

/-- `Grid::contains`: `0 <= x && x < width && 0 <= y && y < height`. -/
def Grid.contains (g : Grid) (coords : Int × Int) : Bool :=
  decide (0 ≤ coords.1) && decide (coords.1 < (g.width : Int)) &&
    decide (0 ≤ coords.2) && decide (coords.2 < (g.points.length : Int))

/-- The unchecked indexing `self.points[y as usize][x as usize]`, modelled
with a default of `0` out of range (the safety claim shows the default is
never reached for coordinates produced by `adjacent` on rectangular grids). -/
def Grid.cellCost (g : Grid) (coords : Int × Int) : Nat :=
  (g.points.getD coords.2.toNat []).getD coords.1.toNat 0

/-- `Grid::adjacent`: the four directions minus the opposite of
`coming_from`, paired with their next coordinate, filtered to the grid. -/
def Grid.adjacent (g : Grid) (coords : Int × Int) (coming_from : Direction) :
    List (Direction × (Int × Int)) :=
  [Direction.Up, Direction.Down, Direction.Left, Direction.Right].filterMap
    (fun direction =>
      if direction = coming_from.opposite then none
      else
        let nxt := direction.next coords
        if g.contains nxt then some (direction, nxt) else none)

/-- `struct State { cost, coords, direction, steps }` (the frontier entry). -/
structure State where
  cost : Nat
  coords : Int × Int
  direction : Direction
  steps : Nat
deriving DecidableEq, Repr

/-- `struct Key { coords, direction, steps }` (the best-cost map key). -/
structure Key where
  coords : Int × Int
  direction : Direction
  steps : Nat
deriving DecidableEq, Repr

/-- `impl From<State> for Key`. -/
def State.toKey (s : State) : Key :=
  ⟨s.coords, s.direction, s.steps⟩

/-- Lookup in the best-cost map (`HashMap::get`). -/
def dlookup (k : Key) : List (Key × Nat) → Option Nat
  | [] => none
  | (k', v) :: rest => if k' = k then some v else dlookup k rest

/-- Insert/replace in the best-cost map (`HashMap::insert`). -/
def dinsert (k : Key) (v : Nat) : List (Key × Nat) → List (Key × Nat)
  | [] => [(k, v)]
  | (k', v') :: rest =>
    if k' = k then (k, v) :: rest else (k', v') :: dinsert k v rest

/-- Pop a minimal-cost element (`BinaryHeap::pop` under the reversed cost
order of `impl Ord for State`; ties are broken arbitrarily by the Rust heap,
here by taking the first minimal element). -/
def popMin : List State → Option (State × List State)
  | [] => none
  | s :: rest =>
    match popMin rest with
    | none => some (s, [])
    | some (m, rest') =>
      if s.cost ≤ m.cost then some (s, rest) else some (m, s :: rest')

/-- `o.is_some_and(|v| v <= c)`. -/
def leSome (o : Option Nat) (c : Nat) : Bool :=
  match o with
  | none => false
  | some v => decide (v ≤ c)

/-- `o.is_some_and(|v| v < c)`. -/
def ltSome (o : Option Nat) (c : Nat) : Bool :=
  match o with
  | none => false
  | some v => decide (v < c)

/-- The successor state built in the expansion loop of `shortest_path`:
cost grows by the entered cell's cost, the streak continues or resets. -/
def mkNext (g : Grid) (st : State) (next_direction : Direction)
    (xy : Int × Int) : State :=
  { cost := st.cost + g.cellCost xy
    coords := xy
    direction := next_direction
    steps := if next_direction = st.direction then st.steps + 1 else 1 }

/-- The three-way skip condition of the expansion loop: the streak is too
long, the best-cost map already holds a value `<=` the candidate's cost, or
the candidate turns while the current streak is below `min_step`. -/
def rejectNext (min_step max_step : Nat) (st : State) (d : List (Key × Nat))
    (next : State) : Bool :=
  decide (max_step < next.steps) || leSome (dlookup next.toKey d) next.cost ||
    (decide (next.direction ≠ st.direction) && decide (st.steps < min_step))

/-- The body of the `for (next_direction, (x, y)) in self.adjacent(..)` loop:
fold over the adjacent list, skipping a successor matching `rejectNext`;
otherwise push it onto the frontier and record its cost. -/
def relax (g : Grid) (min_step max_step : Nat) (st : State) :
    List (Direction × (Int × Int)) → List (Key × Nat) → List State →
      List (Key × Nat) × List State
  | [], d, h => (d, h)
  | (next_direction, xy) :: rest, d, h =>
    let next := mkNext g st next_direction xy
    if rejectNext min_step max_step st d next then
      relax g min_step max_step st rest d h
    else
      relax g min_step max_step st rest (dinsert next.toKey next.cost d) (next :: h)

/-- The `while let Some(state) = heap.pop()` loop of `Grid::shortest_path`,
with explicit fuel.  `none` means the fuel ran out (shown impossible for the
fuel used by `shortest_path`), `some none` that the frontier emptied, and
`some (some c)` that the search returned cost `c`. -/
def go (g : Grid) (endp : Int × Int) (min_step max_step : Nat) :
    Nat → List (Key × Nat) → List State → Option (Option Nat)
  | 0, _, _ => none
  | fuel + 1, d, h =>
    match popMin h with
    | none => some none
    | some (st, h') =>
      if st.coords = endp ∧ min_step ≤ st.steps then
        some (some st.cost)
      else if ltSome (dlookup st.toKey d) st.cost then
        go g endp min_step max_step fuel d h'
      else
        let dh := relax g min_step max_step st (g.adjacent st.coords st.direction) d h'
        go g endp min_step max_step fuel dh.1 dh.2

/-- The two virtual seed states at `start` (directions `Down` and `Right`,
streak 0, cost 0) inserted into the best-cost map before the loop. -/
def initDistances (start : Int × Int) : List (Key × Nat) :=
  [(⟨start, .Down, 0⟩, 0), (⟨start, .Right, 0⟩, 0)]

/-- The two virtual seed states pushed onto the frontier before the loop. -/
def initHeap (start : Int × Int) : List State :=
  [⟨0, start, .Down, 0⟩, ⟨0, start, .Right, 0⟩]

/-- The largest cell value of the grid. -/
def Grid.maxCell (g : Grid) : Nat :=
  (g.points.map (fun row => row.foldr max 0)).foldr max 0

/-- Size of the expanded state space: positions inside the `contains` box,
four directions, streaks `0..=max_step`. -/
def keyCount (g : Grid) (max_step : Nat) : Nat :=
  g.width * g.points.length * 4 * (max_step + 1)

/-- Upper bound on every cost recorded during the search (costs of key-simple
walks in the expanded state graph). -/
def costBound (g : Grid) (max_step : Nat) : Nat :=
  g.maxCell * keyCount g max_step

/-- Fuel sufficient for the loop to reach its `return`/empty-frontier exit. -/
def fuelBound (g : Grid) (max_step : Nat) : Nat :=
  keyCount g max_step * (4 * (costBound g max_step + 1) + 1) + 3

/-- `Grid::shortest_path(start, end, min_step, max_step) -> Option<u32>`. -/
def Grid.shortest_path (g : Grid) (start endp : Int × Int)
    (min_step max_step : Nat) : Option Nat :=
  (go g endp min_step max_step (fuelBound g max_step)
    (initDistances start) (initHeap start)).join

end Day17

namespace Day17

/-! ### Basic lemmas about the embedded operations -/

theorem contains_iff (g : Grid) (c : Int × Int) :
    g.contains c = true ↔
      0 ≤ c.1 ∧ c.1 < (g.width : Int) ∧ 0 ≤ c.2 ∧ c.2 < (g.points.length : Int) := by
  simp [Grid.contains, and_assoc]

theorem mem_adjacent_iff (g : Grid) (coords : Int × Int) (dir : Direction)
    (p : Direction × (Int × Int)) :
    p ∈ g.adjacent coords dir ↔
      p.1 ≠ dir.opposite ∧ p.2 = p.1.next coords ∧ g.contains p.2 = true := by
  obtain ⟨d, xy⟩ := p
  simp only [Grid.adjacent, List.mem_filterMap]
  constructor
  · rintro ⟨a, ha, hfa⟩
    by_cases h1 : a = dir.opposite
    · simp [h1] at hfa
    · by_cases h2 : g.contains (a.next coords) = true
      · simp only [h1, if_false, h2, if_true, Option.some.injEq, Prod.mk.injEq] at hfa
        obtain ⟨rfl, rfl⟩ := hfa
        exact ⟨h1, rfl, h2⟩
      · simp [h1, h2] at hfa
  · rintro ⟨h1, rfl, h3⟩
    refine ⟨d, by cases d <;> simp, ?_⟩
    simp [h1, h3]

theorem adjacent_sub_contains {g : Grid} {coords : Int × Int} {dir : Direction}
    {p : Direction × (Int × Int)} (hp : p ∈ g.adjacent coords dir) :
    g.contains p.2 = true :=
  ((mem_adjacent_iff g coords dir p).1 hp).2.2

theorem dlookup_dinsert_self (k : Key) (v : Nat) (d : List (Key × Nat)) :
    dlookup k (dinsert k v d) = some v := by
  induction d with
  | nil => simp [dinsert, dlookup]
  | cons p rest ih =>
    obtain ⟨k', v'⟩ := p
    by_cases h : k' = k <;> simp [dinsert, dlookup, h, ih]

theorem dlookup_dinsert_ne (k k0 : Key) (v : Nat) (d : List (Key × Nat))
    (h : k ≠ k0) : dlookup k (dinsert k0 v d) = dlookup k d := by
  have h0 : ¬k0 = k := fun e => h e.symm
  induction d with
  | nil => simp [dinsert, dlookup, h0]
  | cons p rest ih =>
    obtain ⟨k', v'⟩ := p
    by_cases h1 : k' = k0
    · subst h1
      simp [dinsert, dlookup, h0]
    · by_cases h2 : k' = k
      · subst h2
        simp [dinsert, dlookup, h0, h1]
      · simp [dinsert, dlookup, h1, h2, ih]

theorem mem_dinsert {p : Key × Nat} {k : Key} {v : Nat} {d : List (Key × Nat)}
    (hp : p ∈ dinsert k v d) : p = (k, v) ∨ p ∈ d := by
  induction d with
  | nil => simpa [dinsert] using hp
  | cons q rest ih =>
    obtain ⟨k', v'⟩ := q
    by_cases h : k' = k
    · simp only [dinsert, h, if_true, List.mem_cons] at hp
      rcases hp with hp | hp
      · exact .inl hp
      · exact .inr (List.mem_cons_of_mem _ hp)
    · simp only [dinsert, h, if_false, List.mem_cons] at hp
      rcases hp with hp | hp
      · exact .inr (by simp [hp])
      · rcases ih hp with hp | hp
        · exact .inl hp
        · exact .inr (List.mem_cons_of_mem _ hp)

theorem mem_keys_dinsert {k1 k : Key} {v : Nat} {d : List (Key × Nat)} :
    k1 ∈ (dinsert k v d).map Prod.fst ↔ k1 = k ∨ k1 ∈ d.map Prod.fst := by
  induction d with
  | nil => simp [dinsert]
  | cons q rest ih =>
    obtain ⟨k', v'⟩ := q
    by_cases h : k' = k
    · subst h
      simp [dinsert]
    · simp only [dinsert, h, if_false, List.map_cons, List.mem_cons, ih]
      tauto

theorem nodup_keys_dinsert {k : Key} {v : Nat} {d : List (Key × Nat)}
    (h : (d.map Prod.fst).Nodup) : ((dinsert k v d).map Prod.fst).Nodup := by
  induction d with
  | nil => simp [dinsert]
  | cons q rest ih =>
    obtain ⟨k', v'⟩ := q
    simp only [List.map_cons, List.nodup_cons] at h
    by_cases he : k' = k
    · subst he
      simpa [dinsert] using h
    · simp only [dinsert, he, if_false, List.map_cons, List.nodup_cons]
      refine ⟨?_, ih h.2⟩
      rw [mem_keys_dinsert]
      rintro (rfl | hk)
      · exact he rfl
      · exact h.1 hk

theorem dlookup_eq_some_mem {k : Key} {v : Nat} {d : List (Key × Nat)}
    (h : dlookup k d = some v) : (k, v) ∈ d := by
  induction d with
  | nil => simp [dlookup] at h
  | cons q rest ih =>
    obtain ⟨k', v'⟩ := q
    by_cases he : k' = k
    · subst he
      simp [dlookup] at h
      subst h
      exact List.mem_cons_self _ _
    · simp only [dlookup, he, if_false] at h
      exact List.mem_cons_of_mem _ (ih h)

theorem dlookup_eq_none_iff {k : Key} {d : List (Key × Nat)} :
    dlookup k d = none ↔ k ∉ d.map Prod.fst := by
  induction d with
  | nil => simp [dlookup]
  | cons q rest ih =>
    obtain ⟨k', v'⟩ := q
    by_cases he : k' = k
    · subst he
      simp [dlookup]
    · simp only [dlookup, he, if_false, List.map_cons, List.mem_cons]
      rw [ih]
      constructor
      · intro hn hm
        rcases hm with hm | hm
        · exact he hm.symm
        · exact hn hm
      · intro hn hm
        exact hn (Or.inr hm)

theorem dlookup_isSome_of_mem {k : Key} {v : Nat} {d : List (Key × Nat)}
    (h : (k, v) ∈ d) : ∃ w, dlookup k d = some w := by
  cases hh : dlookup k d with
  | some w => exact ⟨w, rfl⟩
  | none =>
    rw [dlookup_eq_none_iff] at hh
    exact absurd (List.mem_map_of_mem Prod.fst h) hh

/-- Sum of the recorded best costs, part of the termination measure. -/
def distSum (d : List (Key × Nat)) : Nat :=
  (d.map Prod.snd).sum

theorem distSum_cons (p : Key × Nat) (d : List (Key × Nat)) :
    distSum (p :: d) = p.2 + distSum d := by
  simp [distSum]

theorem distSum_dinsert_fresh {k : Key} {v : Nat} {d : List (Key × Nat)}
    (h : dlookup k d = none) : distSum (dinsert k v d) = distSum d + v := by
  induction d with
  | nil => simp [dinsert, distSum]
  | cons q rest ih =>
    obtain ⟨k', v'⟩ := q
    by_cases he : k' = k
    · subst he
      simp [dlookup] at h
    · simp only [dlookup, he, if_false] at h
      simp only [dinsert, he, if_false]
      rw [distSum_cons, distSum_cons, ih h]
      omega

theorem distSum_dinsert_found {k : Key} {v v0 : Nat} {d : List (Key × Nat)}
    (h : dlookup k d = some v0) :
    distSum (dinsert k v d) + v0 = distSum d + v := by
  induction d with
  | nil => simp [dlookup] at h
  | cons q rest ih =>
    obtain ⟨k', v'⟩ := q
    by_cases he : k' = k
    · subst he
      simp [dlookup] at h
      subst h
      have hrw : dinsert k' v ((k', v') :: rest) = (k', v) :: rest := by simp [dinsert]
      rw [hrw, distSum_cons, distSum_cons]
      omega
    · simp only [dlookup, he, if_false] at h
      simp only [dinsert, he, if_false]
      rw [distSum_cons, distSum_cons]
      have := ih h
      omega

theorem length_dinsert_mem {k : Key} {v : Nat} {d : List (Key × Nat)}
    (h : k ∈ d.map Prod.fst) : (dinsert k v d).length = d.length := by
  induction d with
  | nil => simp at h
  | cons q rest ih =>
    obtain ⟨k', v'⟩ := q
    by_cases he : k' = k
    · simp [dinsert, he]
    · simp only [List.map_cons, List.mem_cons] at h
      rcases h with h | h

      · exact absurd h.symm he
      · simp [dinsert, he, ih h]

theorem length_dinsert_fresh {k : Key} {v : Nat} {d : List (Key × Nat)}
    (h : k ∉ d.map Prod.fst) : (dinsert k v d).length = d.length + 1 := by
  induction d with
  | nil => simp [dinsert]
  | cons q rest ih =>
    obtain ⟨k', v'⟩ := q
    simp only [List.map_cons, List.mem_cons] at h
    push_neg at h
    by_cases he : k' = k
    · exact absurd he.symm h.1
    · simp [dinsert, he, ih h.2]

theorem popMin_eq_none {h : List State} : popMin h = none ↔ h = [] := by
  cases h with
  | nil => simp [popMin]
  | cons s rest =>
    simp only [popMin]
    cases popMin rest with
    | none => simp
    | some p =>
      obtain ⟨m, rest'⟩ := p
      by_cases hc : s.cost ≤ m.cost <;> simp [hc]

theorem popMin_perm {h : List State} {st : State} {h' : List State}
    (e : popMin h = some (st, h')) : h.Perm (st :: h') := by
  induction h generalizing st h' with
  | nil => simp [popMin] at e
  | cons s rest ih =>
    simp only [popMin] at e
    cases hrest : popMin rest with
    | none =>
      rw [hrest] at e
      rw [popMin_eq_none] at hrest
      subst hrest
      simp only [Option.some.injEq, Prod.mk.injEq] at e
      obtain ⟨rfl, rfl⟩ := e
      exact List.Perm.refl _
    | some p =>
      obtain ⟨m, rest'⟩ := p
      rw [hrest] at e
      by_cases hc : s.cost ≤ m.cost
      · simp only [hc, if_true, Option.some.injEq, Prod.mk.injEq] at e
        obtain ⟨rfl, rfl⟩ := e
        exact List.Perm.refl _
      · simp only [hc, if_false, Option.some.injEq, Prod.mk.injEq] at e
        obtain ⟨rfl, rfl⟩ := e
        exact ((ih hrest).cons s).trans (List.Perm.swap _ _ _)

theorem popMin_mem {h : List State} {st : State} {h' : List State}
    (e : popMin h = some (st, h')) : st ∈ h :=
  (popMin_perm e).symm.mem_iff.1 (List.mem_cons_self _ _)

theorem popMin_min {h : List State} {st : State} {h' : List State}
    (e : popMin h = some (st, h')) : ∀ t ∈ h, st.cost ≤ t.cost := by
  induction h generalizing st h' with
  | nil => simp [popMin] at e
  | cons s rest ih =>
    simp only [popMin] at e
    cases hrest : popMin rest with
    | none =>
      rw [hrest] at e
      rw [popMin_eq_none] at hrest
      subst hrest
      simp only [Option.some.injEq, Prod.mk.injEq] at e
      obtain ⟨rfl, rfl⟩ := e
      intro t ht
      simp only [List.mem_singleton] at ht
      subst ht
      exact le_refl _
    | some p =>
      obtain ⟨m, rest'⟩ := p
      rw [hrest] at e
      by_cases hc : s.cost ≤ m.cost
      · simp only [hc, if_true, Option.some.injEq, Prod.mk.injEq] at e
        obtain ⟨rfl, rfl⟩ := e
        intro t ht
        rcases List.mem_cons.1 ht with rfl | ht
        · exact le_refl _
        · exact le_trans hc (ih hrest t ht)
      · simp only [hc, if_false, Option.some.injEq, Prod.mk.injEq] at e
        obtain ⟨rfl, rfl⟩ := e
        intro t ht
        rcases List.mem_cons.1 ht with rfl | ht
        · exact le_of_lt (Nat.lt_of_not_le hc)
        · exact ih hrest t ht

theorem popMin_length {h : List State} {st : State} {h' : List State}
    (e : popMin h = some (st, h')) : h.length = h'.length + 1 := by
  have := (popMin_perm e).length_eq
  simpa using this

/-- `leSome` is false exactly when any present value exceeds the bound. -/
theorem leSome_eq_false_iff (o : Option Nat) (c : Nat) :
    leSome o c = false ↔ ∀ v, o = some v → c < v := by
  cases o <;> simp [leSome, Nat.not_le]

/-- `ltSome` read back as a proposition. -/
theorem ltSome_eq_true_iff (o : Option Nat) (c : Nat) :
    ltSome o c = true ↔ ∃ v, o = some v ∧ v < c := by
  cases o <;> simp [ltSome]

/-- `ltSome` is false exactly when any present value is at least the bound. -/
theorem ltSome_eq_false_iff (o : Option Nat) (c : Nat) :
    ltSome o c = false ↔ ∀ v, o = some v → c ≤ v := by
  cases o <;> simp [ltSome, Nat.not_lt]

/-- `rejectNext` is false exactly when all three acceptance conditions hold. -/
theorem rejectNext_eq_false_iff (min_step max_step : Nat) (st : State)
    (d : List (Key × Nat)) (next : State) :
    rejectNext min_step max_step st d next = false ↔
      next.steps ≤ max_step ∧
      (∀ v, dlookup next.toKey d = some v → next.cost < v) ∧
      (next.direction ≠ st.direction → min_step ≤ st.steps) := by
  rw [rejectNext]
  simp only [Bool.or_eq_false_iff, Bool.and_eq_false_iff, decide_eq_false_iff_not,
    Nat.not_lt, Nat.not_le, leSome_eq_false_iff]
  constructor
  · rintro ⟨⟨h1, h2⟩, h3⟩
    refine ⟨h1, h2, fun hd => ?_⟩
    rcases h3 with h3 | h3
    · exact absurd hd h3
    · exact h3
  · rintro ⟨h1, h2, h3⟩
    refine ⟨⟨h1, h2⟩, ?_⟩
    by_cases hd : next.direction = st.direction
    · exact Or.inl (by simp [hd])
    · exact Or.inr (h3 hd)


/-! ### The expanded state graph: legal steps, trails, path costs -/

/-- One legal transition of the expanded state graph, exactly the conditions
enforced by the search loop: the move comes from `adjacent` (no reversal,
in bounds), the streak continues or resets, stays within `max_step`, and a
turn is only taken once the current streak reached `min_step`. -/
def LegalStep (g : Grid) (min_step max_step : Nat) (k k' : Key) : Prop :=
  (k'.direction, k'.coords) ∈ g.adjacent k.coords k.direction ∧
  k'.steps = (if k'.direction = k.direction then k.steps + 1 else 1) ∧
  k'.steps ≤ max_step ∧
  (k'.direction ≠ k.direction → min_step ≤ k.steps)

/-- A trail: the full visit history (most recent first) of a walk of the
expanded state graph that starts at one of the two virtual seed states and
takes only legal steps; the `Nat` component is the accumulated cost of the
cells entered (the start cell is never charged). -/
inductive Trail (g : Grid) (start : Int × Int) (min_step max_step : Nat) :
    Key → Nat → List (Key × Nat) → Prop
  | seedDown :
      Trail g start min_step max_step ⟨start, .Down, 0⟩ 0 [(⟨start, .Down, 0⟩, 0)]
  | seedRight :
      Trail g start min_step max_step ⟨start, .Right, 0⟩ 0 [(⟨start, .Right, 0⟩, 0)]
  | step {k : Key} {c : Nat} {l : List (Key × Nat)} {k' : Key} :
      Trail g start min_step max_step k c l →
      LegalStep g min_step max_step k k' →
      Trail g start min_step max_step k' (c + g.cellCost k'.coords)
        ((k', c + g.cellCost k'.coords) :: l)

/-- The set of total costs of the paths from `start` to `endp` in the
expanded state graph that satisfy all streak constraints, including the
final-streak rule `min_step ≤` final streak. -/
def pathCosts (g : Grid) (start endp : Int × Int) (min_step max_step : Nat) :
    Set Nat :=
  {c | ∃ k l, Trail g start min_step max_step k c l ∧
    k.coords = endp ∧ min_step ≤ k.steps}

theorem Trail.head_eq {g : Grid} {start : Int × Int} {min_step max_step : Nat}
    {k : Key} {c : Nat} {l : List (Key × Nat)}
    (t : Trail g start min_step max_step k c l) : ∃ l0, l = (k, c) :: l0 := by
  cases t with
  | seedDown => exact ⟨[], rfl⟩
  | seedRight => exact ⟨[], rfl⟩
  | step t h => exact ⟨_, rfl⟩

theorem Trail.ne_nil {g : Grid} {start : Int × Int} {min_step max_step : Nat}
    {k : Key} {c : Nat} {l : List (Key × Nat)}
    (t : Trail g start min_step max_step k c l) : l ≠ [] := by
  obtain ⟨l0, rfl⟩ := t.head_eq
  simp

/-- Costs along a trail never exceed the trail's final cost. -/
theorem Trail.mem_le {g : Grid} {start : Int × Int} {min_step max_step : Nat}
    {k : Key} {c : Nat} {l : List (Key × Nat)}
    (t : Trail g start min_step max_step k c l) : ∀ p ∈ l, p.2 ≤ c := by
  induction t with
  | seedDown =>
    intro p hp
    simp only [List.mem_singleton] at hp
    simp [hp]
  | seedRight =>
    intro p hp
    simp only [List.mem_singleton] at hp
    simp [hp]
  | step t h ih =>
    intro p hp
    rcases List.mem_cons.1 hp with rfl | hp
    · exact le_refl _
    · exact le_trans (ih p hp) (Nat.le_add_right _ _)

/-- Keys that can carry a best-cost entry: inside the `contains` box with a
streak not exceeding `max_step`. -/
def validBoxKey (g : Grid) (max_step : Nat) (k : Key) : Prop :=
  g.contains k.coords = true ∧ k.steps ≤ max_step

/-- All keys of a trail are valid box keys (when the start is in bounds). -/
theorem Trail.valid_keys {g : Grid} {start : Int × Int} {min_step max_step : Nat}
    {k : Key} {c : Nat} {l : List (Key × Nat)}
    (hstart : g.contains start = true)
    (t : Trail g start min_step max_step k c l) :
    ∀ p ∈ l, validBoxKey g max_step p.1 := by
  induction t with
  | seedDown =>
    intro p hp
    simp only [List.mem_singleton] at hp
    subst hp
    exact ⟨hstart, Nat.zero_le _⟩
  | seedRight =>
    intro p hp
    simp only [List.mem_singleton] at hp
    subst hp
    exact ⟨hstart, Nat.zero_le _⟩
  | step t h ih =>
    intro p hp
    rcases List.mem_cons.1 hp with rfl | hp
    · exact ⟨adjacent_sub_contains h.1, h.2.2.1⟩
    · exact ih p hp

/-! ### Counting: valid box keys are at most `keyCount` -/

/-- Numeric code of a direction. -/
def dirIdx : Direction → Nat
  | .Up => 0
  | .Down => 1
  | .Left => 2
  | .Right => 3

theorem dirIdx_lt (d : Direction) : dirIdx d < 4 := by
  cases d <;> simp [dirIdx]

theorem dirIdx_inj {a b : Direction} (h : dirIdx a = dirIdx b) : a = b := by
  cases a <;> cases b <;> simp_all [dirIdx]

/-- Mixed-radix code of a key, injective on valid box keys. -/
def keyIdx (g : Grid) (max_step : Nat) (k : Key) : Nat :=
  ((k.coords.1.toNat + g.width * k.coords.2.toNat) * 4 + dirIdx k.direction) *
    (max_step + 1) + k.steps

theorem mixed_radix_inj {a a' b b' n : Nat} (hb : b < n) (hb' : b' < n)
    (h : a * n + b = a' * n + b') : a = a' ∧ b = b' := by
  have hm : b = b' := by
    have e1 : (a * n + b) % n = b := by
      rw [Nat.add_comm, Nat.add_mul_mod_self_right, Nat.mod_eq_of_lt hb]
    have e2 : (a' * n + b') % n = b' := by
      rw [Nat.add_comm, Nat.add_mul_mod_self_right, Nat.mod_eq_of_lt hb']
    rw [h] at e1
    rw [e2] at e1
    exact e1.symm
  subst hm
  refine ⟨?_, rfl⟩
  have hn : 0 < n := Nat.pos_of_ne_zero (by omega)
  have hmul : a * n = a' * n := by omega
  exact Nat.eq_of_mul_eq_mul_right hn hmul

theorem validBoxKey_coords {g : Grid} {max_step : Nat} {k : Key}
    (h : validBoxKey g max_step k) :
    k.coords.1.toNat < g.width ∧ k.coords.2.toNat < g.points.length ∧
      (k.coords.1.toNat : Int) = k.coords.1 ∧ (k.coords.2.toNat : Int) = k.coords.2 := by
  obtain ⟨hc, hs⟩ := h
  rw [contains_iff] at hc
  obtain ⟨h1, h2, h3, h4⟩ := hc
  refine ⟨?_, ?_, Int.toNat_of_nonneg h1, Int.toNat_of_nonneg h3⟩
  · omega
  · omega

theorem keyIdx_lt {g : Grid} {max_step : Nat} {k : Key}
    (h : validBoxKey g max_step k) : keyIdx g max_step k < keyCount g max_step := by
  obtain ⟨hx, hy, hxz, hyz⟩ := validBoxKey_coords h
  have hsteps : k.steps < max_step + 1 := Nat.lt_succ_of_le h.2
  have hxy : k.coords.1.toNat + g.width * k.coords.2.toNat < g.width * g.points.length := by
    calc k.coords.1.toNat + g.width * k.coords.2.toNat
        < g.width + g.width * k.coords.2.toNat := by omega
      _ = g.width * (k.coords.2.toNat + 1) := by ring
      _ ≤ g.width * g.points.length := Nat.mul_le_mul_left _ (by omega)
  have hdir := dirIdx_lt k.direction
  calc keyIdx g max_step k
      < (((k.coords.1.toNat + g.width * k.coords.2.toNat) * 4 + dirIdx k.direction) + 1) *
        (max_step + 1) := by
        unfold keyIdx
        nlinarith
    _ ≤ (g.width * g.points.length * 4) * (max_step + 1) := by
        apply Nat.mul_le_mul_right
        nlinarith
    _ = keyCount g max_step := by
        unfold keyCount
        ring

theorem keyIdx_inj {g : Grid} {max_step : Nat} {k k' : Key}
    (hk : validBoxKey g max_step k) (hk' : validBoxKey g max_step k')
    (h : keyIdx g max_step k = keyIdx g max_step k') : k = k' := by
  obtain ⟨hx, hy, hxz, hyz⟩ := validBoxKey_coords hk
  obtain ⟨hx', hy', hxz', hyz'⟩ := validBoxKey_coords hk'
  unfold keyIdx at h
  obtain ⟨h1, hsteps⟩ := mixed_radix_inj
    (Nat.lt_succ_of_le hk.2) (Nat.lt_succ_of_le hk'.2) h
  obtain ⟨h2, hdir⟩ := mixed_radix_inj (dirIdx_lt _) (dirIdx_lt _) h1
  have h3 : k.coords.2.toNat * g.width + k.coords.1.toNat =
      k'.coords.2.toNat * g.width + k'.coords.1.toNat := by
    have e : ∀ x y : Nat, y * g.width + x = x + g.width * y := by
      intro x y
      ring
    rw [e, e]
    exact h2
  obtain ⟨hyy, hxx⟩ := mixed_radix_inj hx hx' h3
  have hcoords : k.coords = k'.coords := by
    have e1 : k.coords.1 = k'.coords.1 := by rw [← hxz, ← hxz', hxx]
    have e2 : k.coords.2 = k'.coords.2 := by rw [← hyz, ← hyz', hyy]
    exact Prod.ext e1 e2
  obtain ⟨c1, d1, s1⟩ := k
  obtain ⟨c2, d2, s2⟩ := k'
  simp only at hcoords hsteps hdir
  rw [hcoords, dirIdx_inj hdir, hsteps]

/-- A duplicate-free list of valid box keys has at most `keyCount` entries. -/
theorem length_le_keyCount {g : Grid} {max_step : Nat} {ks : List Key}
    (hnd : ks.Nodup) (hv : ∀ k ∈ ks, validBoxKey g max_step k) :
    ks.length ≤ keyCount g max_step := by
  classical
  have hmapnd : (ks.map (keyIdx g max_step)).Nodup := by
    refine List.Nodup.map_on ?_ hnd
    intro x hx y hy hxy
    exact keyIdx_inj (hv x hx) (hv y hy) hxy
  calc ks.length = (ks.map (keyIdx g max_step)).length := by simp
    _ = (ks.map (keyIdx g max_step)).toFinset.card :=
        (List.toFinset_card_of_nodup hmapnd).symm
    _ ≤ (Finset.range (keyCount g max_step)).card := by
        apply Finset.card_le_card
        intro n hn
        rw [List.mem_toFinset, List.mem_map] at hn
        obtain ⟨k, hk, rfl⟩ := hn
        simpa [Finset.mem_range] using keyIdx_lt (hv k hk)
    _ = keyCount g max_step := Finset.card_range _

/-! ### Cell costs are bounded by `maxCell` and trails by `costBound` -/

theorem le_foldr_max {l : List Nat} {x : Nat} (h : x ∈ l) : x ≤ l.foldr max 0 := by
  induction l with
  | nil => simp at h
  | cons a t ih =>
    rcases List.mem_cons.1 h with rfl | h
    · exact le_max_left _ _
    · exact le_trans (ih h) (le_max_right _ _)

theorem cellCost_le_maxCell (g : Grid) (xy : Int × Int) :
    g.cellCost xy ≤ g.maxCell := by
  unfold Grid.cellCost Grid.maxCell
  have hgen : ∀ (ll : List Nat) (i : Nat), ll.getD i 0 ≤ ll.foldr max 0 := by
    intro ll i
    by_cases hi : i < ll.length
    · have hm : ll.getD i 0 ∈ ll := by
        simp only [List.getD_eq_getElem?_getD, List.getElem?_eq_getElem hi,
          Option.getD_some]
        exact List.getElem_mem hi
      exact le_foldr_max hm
    · rw [List.getD_eq_getElem?_getD, List.getElem?_eq_none (by omega)]
      exact Nat.zero_le _
  by_cases hy : xy.2.toNat < g.points.length
  · have hmem : g.points.getD xy.2.toNat [] ∈ g.points := by
      simp only [List.getD_eq_getElem?_getD, List.getElem?_eq_getElem hy,
        Option.getD_some]
      exact List.getElem_mem hy
    exact le_trans (hgen _ _)
      (le_foldr_max (List.mem_map_of_mem (fun row => row.foldr max 0) hmem))
  · have hz : g.points.getD xy.2.toNat [] = [] := by
      rw [List.getD_eq_getElem?_getD, List.getElem?_eq_none (by omega)]
      rfl
    rw [hz]
    simp

/-- The cost of a trail is at most `maxCell` per step taken. -/
theorem Trail.cost_le {g : Grid} {start : Int × Int} {min_step max_step : Nat}
    {k : Key} {c : Nat} {l : List (Key × Nat)}
    (t : Trail g start min_step max_step k c l) :
    c ≤ g.maxCell * (l.length - 1) := by
  induction t with
  | seedDown => simp
  | seedRight => simp
  | @step k0 c0 l0 k1 t h ih =>
    have hpos : 0 < l0.length := List.length_pos.2 t.ne_nil
    have hcell := cellCost_le_maxCell g k1.coords
    simp only [List.length_cons]
    have hl : l0.length + 1 - 1 = l0.length := by omega
    rw [hl]
    have h2 : g.maxCell * (l0.length - 1) + g.maxCell = g.maxCell * l0.length := by
      have e : l0.length - 1 + 1 = l0.length := by omega
      calc g.maxCell * (l0.length - 1) + g.maxCell
          = g.maxCell * (l0.length - 1 + 1) := by ring
        _ = g.maxCell * l0.length := by rw [e]
    omega

/-- A duplicate-free trail never costs more than `costBound`. -/
theorem Trail.cost_le_costBound {g : Grid} {start : Int × Int}
    {min_step max_step : Nat} {k : Key} {c : Nat} {l : List (Key × Nat)}
    (hstart : g.contains start = true)
    (t : Trail g start min_step max_step k c l)
    (hnd : (l.map Prod.fst).Nodup) : c ≤ costBound g max_step := by
  have hlen : (l.map Prod.fst).length ≤ keyCount g max_step := by
    apply length_le_keyCount hnd
    intro k1 hk1
    rw [List.mem_map] at hk1
    obtain ⟨p, hp, rfl⟩ := hk1
    exact t.valid_keys hstart p hp
  have hlen2 : l.length ≤ keyCount g max_step := by simpa using hlen
  calc c ≤ g.maxCell * (l.length - 1) := t.cost_le
    _ ≤ g.maxCell * keyCount g max_step := Nat.mul_le_mul_left _ (by omega)
    _ = costBound g max_step := rfl



/-! ### Characterizing `relax` and reachable loop configurations -/

/-- `relax` never removes heap entries. -/
theorem relax_heap_mono {g : Grid} {min_step max_step : Nat} {st : State}
    {l : List (Direction × (Int × Int))} :
    ∀ {d : List (Key × Nat)} {h : List State} {s : State}, s ∈ h →
      s ∈ (relax g min_step max_step st l d h).2 := by
  induction l with
  | nil =>
    intro d h s hs
    simpa [relax] using hs
  | cons q rest ih =>
    intro d h s hs
    obtain ⟨nd, xy⟩ := q
    simp only [relax]
    by_cases hr : rejectNext min_step max_step st d (mkNext g st nd xy) = true
    · simp only [hr, if_true]
      exact ih hs
    · simp only [Bool.not_eq_true] at hr
      simp only [hr, Bool.false_eq_true, if_false]
      exact ih (List.mem_cons_of_mem _ hs)

/-- Every heap entry after `relax` is an old entry or an accepted successor
of the expanded state `st`. -/
theorem relax_heap_mem {g : Grid} {min_step max_step : Nat} {st : State}
    {l : List (Direction × (Int × Int))} :
    ∀ {d : List (Key × Nat)} {h : List State} {s : State},
      s ∈ (relax g min_step max_step st l d h).2 →
      s ∈ h ∨ ((∃ p ∈ l, s = mkNext g st p.1 p.2) ∧ 1 ≤ s.steps ∧ s.steps ≤ max_step ∧
        (s.direction ≠ st.direction → min_step ≤ st.steps)) := by
  induction l with
  | nil =>
    intro d h s hs
    simp only [relax] at hs
    exact Or.inl hs
  | cons q rest ih =>
    intro d h s hs
    obtain ⟨nd, xy⟩ := q
    simp only [relax] at hs
    by_cases hr : rejectNext min_step max_step st d (mkNext g st nd xy) = true
    · simp only [hr, if_true] at hs
      rcases ih hs with hs | ⟨⟨p, hp, hsp⟩, h1, h2, h3⟩
      · exact Or.inl hs
      · exact Or.inr ⟨⟨p, List.mem_cons_of_mem _ hp, hsp⟩, h1, h2, h3⟩
    · simp only [Bool.not_eq_true] at hr
      simp only [hr, Bool.false_eq_true, if_false] at hs
      rw [rejectNext_eq_false_iff] at hr
      rcases ih hs with hs | ⟨⟨p, hp, hsp⟩, h1, h2, h3⟩
      · rcases List.mem_cons.1 hs with rfl | hs
        · refine Or.inr ⟨⟨(nd, xy), List.mem_cons_self _ _, rfl⟩, ?_, hr.1, hr.2.2⟩
          simp only [mkNext]
          split <;> omega
        · exact Or.inl hs
      · exact Or.inr ⟨⟨p, List.mem_cons_of_mem _ hp, hsp⟩, h1, h2, h3⟩

/-- Every best-cost entry after `relax` is an old entry or keyed by an
accepted successor (streak in `[1, max_step]`). -/
theorem relax_dist_mem {g : Grid} {min_step max_step : Nat} {st : State}
    {l : List (Direction × (Int × Int))} :
    ∀ {d : List (Key × Nat)} {h : List State} {p : Key × Nat},
      p ∈ (relax g min_step max_step st l d h).1 →
      p ∈ d ∨ (1 ≤ p.1.steps ∧ p.1.steps ≤ max_step) := by
  induction l with
  | nil =>
    intro d h p hp
    simp only [relax] at hp
    exact Or.inl hp
  | cons q rest ih =>
    intro d h p hp
    obtain ⟨nd, xy⟩ := q
    simp only [relax] at hp
    by_cases hr : rejectNext min_step max_step st d (mkNext g st nd xy) = true
    · simp only [hr, if_true] at hp
      exact ih hp
    · simp only [Bool.not_eq_true] at hr
      simp only [hr, Bool.false_eq_true, if_false] at hp
      rw [rejectNext_eq_false_iff] at hr
      rcases ih hp with hp | hp
      · rcases mem_dinsert hp with rfl | hp
        · refine Or.inr ⟨?_, ?_⟩
          · simp only [State.toKey, mkNext]
            split <;> omega
          · simpa [State.toKey] using hr.1
        · exact Or.inl hp
      · exact Or.inr hp

/-- Configurations (best-cost map, frontier) that the search loop of
`shortest_path` can reach from the seeded initial configuration. -/
inductive Reach (g : Grid) (start endp : Int × Int) (min_step max_step : Nat) :
    List (Key × Nat) → List State → Prop
  | init : Reach g start endp min_step max_step (initDistances start) (initHeap start)
  | stale {d : List (Key × Nat)} {h : List State} {st : State} {h' : List State} :
      Reach g start endp min_step max_step d h →
      popMin h = some (st, h') →
      ¬(st.coords = endp ∧ min_step ≤ st.steps) →
      ltSome (dlookup st.toKey d) st.cost = true →
      Reach g start endp min_step max_step d h'
  | expand {d : List (Key × Nat)} {h : List State} {st : State} {h' : List State} :
      Reach g start endp min_step max_step d h →
      popMin h = some (st, h') →
      ¬(st.coords = endp ∧ min_step ≤ st.steps) →
      ltSome (dlookup st.toKey d) st.cost = false →
      Reach g start endp min_step max_step
        (relax g min_step max_step st (g.adjacent st.coords st.direction) d h').1
        (relax g min_step max_step st (g.adjacent st.coords st.direction) d h').2

/-- Variant of `go` returning the final accepted popped state itself rather
than just its cost. -/
def goState (g : Grid) (endp : Int × Int) (min_step max_step : Nat) :
    Nat → List (Key × Nat) → List State → Option (Option State)
  | 0, _, _ => none
  | fuel + 1, d, h =>
    match popMin h with
    | none => some none
    | some (st, h') =>
      if st.coords = endp ∧ min_step ≤ st.steps then
        some (some st)
      else if ltSome (dlookup st.toKey d) st.cost then
        goState g endp min_step max_step fuel d h'
      else
        let dh := relax g min_step max_step st (g.adjacent st.coords st.direction) d h'
        goState g endp min_step max_step fuel dh.1 dh.2

theorem go_eq_goState (g : Grid) (endp : Int × Int) (min_step max_step : Nat) :
    ∀ (fuel : Nat) (d : List (Key × Nat)) (h : List State),
      go g endp min_step max_step fuel d h =
        (goState g endp min_step max_step fuel d h).map (Option.map State.cost) := by
  intro fuel
  induction fuel with
  | zero =>
    intro d h
    simp [go, goState]
  | succ n ih =>
    intro d h
    cases hpop : popMin h with
    | none => simp [go, goState, hpop]
    | some p =>
      obtain ⟨st, h'⟩ := p
      by_cases hterm : st.coords = endp ∧ min_step ≤ st.steps
      · simp [go, goState, hpop, hterm]
      · by_cases hstale : ltSome (dlookup st.toKey d) st.cost = true
        · simp only [go, goState, hpop, hterm, if_false, hstale, if_true]
          exact ih _ _
        · simp only [Bool.not_eq_true] at hstale
          simp only [go, goState, hpop, hterm, if_false, hstale,
            Bool.false_eq_true]
          exact ih _ _

/-- Any accepted return of `goState` is a popped state of a reachable
configuration whose position is `endp` and whose streak reached
`min_step`. -/
theorem goState_some_spec (g : Grid) (start endp : Int × Int)
    (min_step max_step : Nat) :
    ∀ (fuel : Nat) (d : List (Key × Nat)) (h : List State),
      Reach g start endp min_step max_step d h →
      ∀ st : State,
        goState g endp min_step max_step fuel d h = some (some st) →
        st.coords = endp ∧ min_step ≤ st.steps ∧
        ∃ d0 h0 h0', Reach g start endp min_step max_step d0 h0 ∧
          popMin h0 = some (st, h0') := by
  intro fuel
  induction fuel with
  | zero =>
    intro d h hr st hst
    simp [goState] at hst
  | succ n ih =>
    intro d h hr st hst
    cases hpop : popMin h with
    | none => simp [goState, hpop] at hst
    | some p =>
      obtain ⟨st0, h'⟩ := p
      by_cases hterm : st0.coords = endp ∧ min_step ≤ st0.steps
      · simp only [goState, hpop] at hst
        rw [if_pos hterm] at hst
        simp only [Option.some.injEq] at hst
        subst hst
        exact ⟨hterm.1, hterm.2, d, h, h', hr, hpop⟩
      · by_cases hstale : ltSome (dlookup st0.toKey d) st0.cost = true
        · simp only [goState, hpop, hterm, if_false, hstale, if_true] at hst
          exact ih _ _ (Reach.stale hr hpop hterm hstale) st hst
        · simp only [Bool.not_eq_true] at hstale
          simp only [goState, hpop, hterm, if_false, hstale,
            Bool.false_eq_true] at hst
          exact ih _ _ (Reach.expand hr hpop hterm hstale) st hst

/-- `Option.join` inverted on a `some` result. -/
theorem join_eq_some {o : Option (Option Nat)} {c : Nat}
    (h : o.join = some c) : o = some (some c) := by
  cases o with
  | none => simp at h
  | some o' =>
    cases o' with
    | none => simp at h
    | some c' => simpa using h



/-! ### First moves from the seeds -/

/-- A direction is available as the very first move of the search when some
one-step trail (seed plus one legal step) moves in it. -/
def firstStepPermitted (g : Grid) (start : Int × Int) (min_step max_step : Nat)
    (dir : Direction) : Prop :=
  ∃ k c l, Trail g start min_step max_step k c l ∧ l.length = 2 ∧
    k.direction = dir

/-- With a positive `min_step`, the only directions available as a first
move are the two seeded ones, `Down` and `Right` (when in bounds): the
seeds have streak `0 < min_step`, so they can never turn. -/
theorem firstStepPermitted_iff (g : Grid) (start : Int × Int)
    (min_step max_step : Nat) (hmin : 1 ≤ min_step) (hmax : 1 ≤ max_step)
    (dir : Direction) :
    firstStepPermitted g start min_step max_step dir ↔
      (dir = .Down ∨ dir = .Right) ∧ g.contains (dir.next start) = true := by
  constructor
  · rintro ⟨k, c, l, t, hlen, hdir⟩
    cases t with
    | seedDown => simp at hlen
    | seedRight => simp at hlen
    | @step k0 c0 l0 k1 t0 h =>
      have hlen0 : l0.length = 1 := by
        simpa using hlen
      have hseed : (k0 = ⟨start, .Down, 0⟩ ∨ k0 = ⟨start, .Right, 0⟩) ∧ c0 = 0 := by
        cases t0 with
        | seedDown => exact ⟨Or.inl rfl, rfl⟩
        | seedRight => exact ⟨Or.inr rfl, rfl⟩
        | @step k2 c2 l2 k3 t2 h2 =>
          obtain ⟨l3, rfl⟩ := t2.head_eq
          simp at hlen0
      have hsame : k.direction = k0.direction := by
        by_contra hne
        have := h.2.2.2 hne
        rcases hseed.1 with rfl | rfl <;> simp at this <;> omega
      obtain ⟨hm1, hm2, hm3⟩ := (mem_adjacent_iff g k0.coords k0.direction
        (k.direction, k.coords)).1 h.1
      dsimp only at hm1 hm2 hm3
      refine ⟨?_, ?_⟩
      · rcases hseed.1 with rfl | rfl
        · exact Or.inl (by rw [← hdir, hsame])
        · exact Or.inr (by rw [← hdir, hsame])
      · have hco : k.coords = dir.next start := by
          rw [hm2, ← hdir]
          rcases hseed.1 with rfl | rfl
          · rw [hsame]
          · rw [hsame]
        rw [← hco]
        exact hm3
  · rintro ⟨hd, hc⟩
    rcases hd with rfl | rfl
    · refine ⟨⟨Direction.Down.next start, .Down, 1⟩, 0 + g.cellCost (Direction.Down.next start),
        _, Trail.step Trail.seedDown ?_, rfl, rfl⟩
      refine ⟨?_, by simp, by simpa using hmax, by simp⟩
      rw [mem_adjacent_iff]
      refine ⟨?_, rfl, hc⟩
      simp [Direction.opposite]
    · refine ⟨⟨Direction.Right.next start, .Right, 1⟩, 0 + g.cellCost (Direction.Right.next start),
        _, Trail.step Trail.seedRight ?_, rfl, rfl⟩
      refine ⟨?_, by simp, by simpa using hmax, by simp⟩
      rw [mem_adjacent_iff]
      refine ⟨?_, rfl, hc⟩
      simp [Direction.opposite]

/-! ### Concrete grids used in witnesses and counterexamples -/

/-- A 3 by 3 all-ones grid. -/
def grid3 : Grid := ⟨[[1, 1, 1], [1, 1, 1], [1, 1, 1]]⟩

/-- A 5 by 5 all-ones grid. -/
def grid5 : Grid :=
  ⟨[[1, 1, 1, 1, 1], [1, 1, 1, 1, 1], [1, 1, 1, 1, 1], [1, 1, 1, 1, 1],
    [1, 1, 1, 1, 1]]⟩

/-- A 2 by 2 all-ones grid. -/
def grid2 : Grid := ⟨[[1, 1], [1, 1]]⟩

/-- A single-row grid of five cells. -/
def grid1row : Grid := ⟨[[1, 1, 1, 1, 1]]⟩

/-- Rows all have the width used by `contains`. -/
def Grid.rectangular (g : Grid) : Prop :=
  ∀ row ∈ g.points, row.length = g.width

instance (g : Grid) : Decidable g.rectangular := by
  unfold Grid.rectangular
  infer_instance

/-! ### Claim theorems: C2, C3, C7, C8, C9, C10 -/

/-- C2 (corrected): with a positive `min_step` the four directions are NOT
all available as a first step; only the two seeded directions `Down` and
`Right` (when in bounds) can begin a path considered by the search, because
a seed has streak `0 < min_step` and may not turn. -/
theorem C2_first_step_only_seeded (g : Grid) (start : Int × Int)
    (min_step max_step : Nat) (hmin : 1 ≤ min_step) (hmax : 1 ≤ max_step)
    (dir : Direction) :
    firstStepPermitted g start min_step max_step dir ↔
      (dir = .Down ∨ dir = .Right) ∧ g.contains (dir.next start) = true :=
  firstStepPermitted_iff g start min_step max_step hmin hmax dir

/-- Witness for C2: on the 3 by 3 grid from the centre, `Down` is a
permitted first step. -/
theorem C2_first_step_only_seeded_witness :
    firstStepPermitted grid3 (1, 1) 1 3 .Down := by
  rw [C2_first_step_only_seeded grid3 (1, 1) 1 3 (by decide) (by decide) .Down]
  decide

/-- Counterexample for C2 as stated: from the centre of a 3 by 3 grid with
`min_streak = 1`, moving `Up` stays in bounds, yet `Up` is not available as
a first step (and neither is `Left`). -/
theorem C2_counterexample :
    grid3.contains (Direction.Up.next (1, 1)) = true ∧
    ¬firstStepPermitted grid3 (1, 1) 1 3 .Up ∧
    ¬firstStepPermitted grid3 (1, 1) 1 3 .Left := by
  refine ⟨by decide, ?_, ?_⟩
  · intro hp
    have := (firstStepPermitted_iff grid3 (1, 1) 1 3 (by decide) (by decide) .Up).1 hp
    rcases this.1 with h | h <;> simp at h
  · intro hp
    have := (firstStepPermitted_iff grid3 (1, 1) 1 3 (by decide) (by decide) .Left).1 hp
    rcases this.1 with h | h <;> simp at h

/-- C3: the search returns a cost only from a popped frontier state whose
position equals `endp` and whose streak is at least `min_step`; a pop at
`endp` with a smaller streak never causes a return, as every returned value
comes with such a state. -/
theorem C3_return_guard (g : Grid) (start endp : Int × Int)
    (min_step max_step : Nat) (c : Nat)
    (hres : g.shortest_path start endp min_step max_step = some c) :
    ∃ st : State, st.cost = c ∧ st.coords = endp ∧ min_step ≤ st.steps ∧
      (∃ d0 h0 h0', Reach g start endp min_step max_step d0 h0 ∧
        popMin h0 = some (st, h0')) ∧
      goState g endp min_step max_step (fuelBound g max_step)
        (initDistances start) (initHeap start) = some (some st) := by
  unfold Grid.shortest_path at hres
  have h1 := join_eq_some hres
  rw [go_eq_goState] at h1
  cases hgs : goState g endp min_step max_step (fuelBound g max_step)
      (initDistances start) (initHeap start) with
  | none =>
    rw [hgs] at h1
    simp at h1
  | some o =>
    cases o with
    | none =>
      rw [hgs] at h1
      simp at h1
    | some st =>
      rw [hgs] at h1
      have hc : st.cost = c := by simpa using h1
      obtain ⟨he, hs, d0, h0, h0', hr, hpop⟩ :=
        goState_some_spec g start endp min_step max_step _ _ _ Reach.init st hgs
      exact ⟨st, hc, he, hs, ⟨d0, h0, h0', hr, hpop⟩, rfl⟩

/-- Witness for C3 on a 2 by 2 grid. -/
theorem C3_return_guard_witness :
    ∃ st : State, st.cost = 2 ∧ st.coords = ((1 : Int), (1 : Int)) ∧
      1 ≤ st.steps ∧
      (∃ d0 h0 h0', Reach grid2 (0, 0) (1, 1) 1 1 d0 h0 ∧
        popMin h0 = some (st, h0')) ∧
      goState grid2 (1, 1) 1 1 (fuelBound grid2 1)
        (initDistances (0, 0)) (initHeap (0, 0)) = some (some st) :=
  C3_return_guard grid2 (0, 0) (1, 1) 1 1 2 (by decide)

/-- C7: `adjacent` never proposes the opposite of the direction the state
came from, so no explored transition reverses direction. -/
theorem C7_no_reversal (g : Grid) (coords : Int × Int) (dir : Direction)
    (p : Direction × (Int × Int)) (hp : p ∈ g.adjacent coords dir) :
    p.1 ≠ dir.opposite :=
  ((mem_adjacent_iff g coords dir p).1 hp).1

/-- Witness for C7: a concrete adjacent entry. -/
theorem C7_no_reversal_witness :
    ((Direction.Right, ((1 : Int), (0 : Int))) ∈
      grid3.adjacent (0, 0) Direction.Right) ∧
    (Direction.Right, ((1 : Int), (0 : Int))).1 ≠ Direction.Right.opposite :=
  ⟨by decide, C7_no_reversal grid3 (0, 0) Direction.Right _ (by decide)⟩

/-- C8: in every reachable configuration, each frontier state and each
best-cost key other than the two seeds has streak in `[1, max_step]`;
moreover a successor continuing the same direction gets streak
`steps + 1` (a turn gets streak `1`), and any successor whose streak
exceeds `max_step` is rejected. -/
theorem C8_streak_bounds (g : Grid) (start endp : Int × Int)
    (min_step max_step : Nat) (d : List (Key × Nat)) (h : List State)
    (hr : Reach g start endp min_step max_step d h) :
    (∀ s ∈ h, s ∈ initHeap start ∨ (1 ≤ s.steps ∧ s.steps ≤ max_step)) ∧
    (∀ p ∈ d, p ∈ initDistances start ∨
      (1 ≤ p.1.steps ∧ p.1.steps ≤ max_step)) ∧
    (∀ (st : State) (nd : Direction) (xy : Int × Int),
      (mkNext g st nd xy).steps =
        if nd = st.direction then st.steps + 1 else 1) ∧
    (∀ (st next : State) (d0 : List (Key × Nat)), max_step < next.steps →
      rejectNext min_step max_step st d0 next = true) := by
  have hdef : ∀ (st : State) (nd : Direction) (xy : Int × Int),
      (mkNext g st nd xy).steps =
        if nd = st.direction then st.steps + 1 else 1 := fun _ _ _ => rfl
  have hrej : ∀ (st next : State) (d0 : List (Key × Nat)),
      max_step < next.steps →
      rejectNext min_step max_step st d0 next = true := by
    intro st next d0 hlt
    simp [rejectNext, hlt]
  induction hr with
  | init =>
    exact ⟨fun s hs => Or.inl hs, fun p hp => Or.inl hp, hdef, hrej⟩
  | stale hr0 hpop hterm hstale ih =>
    obtain ⟨ih1, ih2, _, _⟩ := ih
    refine ⟨?_, ih2, hdef, hrej⟩
    intro s hs
    exact ih1 s ((popMin_perm hpop).mem_iff.2 (List.mem_cons_of_mem _ hs))
  | expand hr0 hpop hterm hstale ih =>
    obtain ⟨ih1, ih2, _, _⟩ := ih
    refine ⟨?_, ?_, hdef, hrej⟩
    · intro s hs
      rcases relax_heap_mem hs with hs | ⟨_, h1, h2, _⟩
      · exact ih1 s ((popMin_perm hpop).mem_iff.2 (List.mem_cons_of_mem _ hs))
      · exact Or.inr ⟨h1, h2⟩
    · intro p hp
      rcases relax_dist_mem hp with hp | hp
      · exact ih2 p hp
      · exact Or.inr hp

/-- Witness for C8 at the initial configuration of a 2 by 2 search,
instantiated at the first seed state. -/
theorem C8_streak_bounds_witness :
    (⟨0, ((0 : Int), (0 : Int)), .Down, 0⟩ : State) ∈
        initHeap ((0 : Int), (0 : Int)) ∨
      (1 ≤ (⟨0, ((0 : Int), (0 : Int)), .Down, 0⟩ : State).steps ∧
        (⟨0, ((0 : Int), (0 : Int)), .Down, 0⟩ : State).steps ≤ 3) :=
  (C8_streak_bounds grid2 (0, 0) (1, 1) 1 3 _ _ Reach.init).1
    ⟨0, ((0 : Int), (0 : Int)), .Down, 0⟩ (by decide)

/-- C9: on the 5 by 5 all-ones grid with `min_streak = max_streak = 1`
(strict zig-zag), the search returns cost 8. -/
theorem C9_five_by_five : grid5.shortest_path (0, 0) (4, 4) 1 1 = some 8 := by
  decide

/-- C10: on a rectangular non-empty grid with an in-bounds start, every
coordinate produced by `adjacent` indexes `points` within bounds, so the
unchecked lookup `points[y][x]` of the expansion loop never goes out of
range. -/
theorem C10_index_safe (g : Grid) (hrect : g.rectangular)
    (hne : g.points ≠ []) (start : Int × Int)
    (hstart : g.contains start = true) (coords : Int × Int) (dir : Direction)
    (p : Direction × (Int × Int)) (hp : p ∈ g.adjacent coords dir) :
    0 ≤ p.2.1 ∧ 0 ≤ p.2.2 ∧ p.2.2.toNat < g.points.length ∧
      p.2.1.toNat < (g.points.getD p.2.2.toNat []).length := by
  have hc := adjacent_sub_contains hp
  rw [contains_iff] at hc
  obtain ⟨h1, h2, h3, h4⟩ := hc
  have hy : p.2.2.toNat < g.points.length := by omega
  refine ⟨h1, h3, hy, ?_⟩
  have hrow : g.points.getD p.2.2.toNat [] ∈ g.points := by
    simp only [List.getD_eq_getElem?_getD, List.getElem?_eq_getElem hy,
      Option.getD_some]
    exact List.getElem_mem hy
  rw [hrect _ hrow]
  omega

/-- Witness for C10 on the 3 by 3 grid. -/
theorem C10_index_safe_witness :
    0 ≤ ((Direction.Down, ((0 : Int), (1 : Int))).2.1) ∧
    0 ≤ ((Direction.Down, ((0 : Int), (1 : Int))).2.2) ∧
    ((Direction.Down, ((0 : Int), (1 : Int))).2.2.toNat < grid3.points.length) ∧
    ((Direction.Down, ((0 : Int), (1 : Int))).2.1.toNat <
      (grid3.points.getD (Direction.Down, ((0 : Int), (1 : Int))).2.2.toNat []).length) :=
  C10_index_safe grid3 (by decide) (by decide) (0, 0) (by decide) (0, 0)
    Direction.Down _ (by decide)



/-! ### The soundness invariant of the search loop -/

/-- Evolution order on best-cost maps: keys persist and values never
increase. -/
def Dle (d' d : List (Key × Nat)) : Prop :=
  ∀ k v, dlookup k d = some v → ∃ v', dlookup k d' = some v' ∧ v' ≤ v

theorem Dle.refl (d : List (Key × Nat)) : Dle d d :=
  fun _ v hv => ⟨v, hv, le_refl v⟩

theorem Dle.trans {d1 d2 d3 : List (Key × Nat)} (h12 : Dle d1 d2)
    (h23 : Dle d2 d3) : Dle d1 d3 := by
  intro k v hv
  obtain ⟨v2, hv2, hle2⟩ := h23 k v hv
  obtain ⟨v1, hv1, hle1⟩ := h12 k v2 hv2
  exact ⟨v1, hv1, le_trans hle1 hle2⟩

theorem dinsert_dle {k0 : Key} {c0 : Nat} {d : List (Key × Nat)}
    (hc : ∀ v0, dlookup k0 d = some v0 → c0 ≤ v0) :
    Dle (dinsert k0 c0 d) d := by
  intro k v hv
  by_cases hk : k = k0
  · subst hk
    exact ⟨c0, dlookup_dinsert_self _ _ _, hc v hv⟩
  · refine ⟨v, ?_, le_refl v⟩
    rw [dlookup_dinsert_ne _ _ _ _ hk]
    exact hv

/-- Every key of a trail currently has a recorded best cost at most its
cost along the trail. -/
def TrailDom (d : List (Key × Nat)) (l : List (Key × Nat)) : Prop :=
  ∀ p ∈ l, ∃ v, dlookup p.1 d = some v ∧ v ≤ p.2

theorem TrailDom.mono {d' d : List (Key × Nat)} {l : List (Key × Nat)}
    (hd : Dle d' d) (h : TrailDom d l) : TrailDom d' l := by
  intro p hp
  obtain ⟨v, hv, hle⟩ := h p hp
  obtain ⟨v', hv', hle'⟩ := hd p.1 v hv
  exact ⟨v', hv', le_trans hle' hle⟩

/-- The soundness invariant of the search loop: every best-cost entry and
every frontier entry is realized by a duplicate-free trail whose keys all
carry best-cost entries below their trail costs; the seeds stay recorded at
cost 0; keys are duplicate-free valid box keys. -/
structure SInv (g : Grid) (start : Int × Int) (min_step max_step : Nat)
    (d : List (Key × Nat)) (h : List State) : Prop where
  dist_trail : ∀ k v, dlookup k d = some v →
    ∃ l, Trail g start min_step max_step k v l ∧ TrailDom d l ∧
      (l.map Prod.fst).Nodup
  heap_trail : ∀ s ∈ h, ∃ l, Trail g start min_step max_step s.toKey s.cost l ∧
    TrailDom d l ∧ (l.map Prod.fst).Nodup
  heap_dist : ∀ s ∈ h, ∃ v, dlookup s.toKey d = some v ∧ v ≤ s.cost
  nodup : (d.map Prod.fst).Nodup
  seedD : dlookup ⟨start, .Down, 0⟩ d = some 0
  seedR : dlookup ⟨start, .Right, 0⟩ d = some 0
  dist_valid : ∀ p ∈ d, validBoxKey g max_step p.1

theorem sInv_init {g : Grid} {start : Int × Int} {min_step max_step : Nat}
    (hstart : g.contains start = true) :
    SInv g start min_step max_step (initDistances start) (initHeap start) := by
  have hDne : (⟨start, .Down, 0⟩ : Key) ≠ ⟨start, .Right, 0⟩ := by
    intro e
    cases e
  have hlookD : dlookup ⟨start, .Down, 0⟩ (initDistances start) = some 0 := by
    simp [initDistances, dlookup]
  have hlookR : dlookup ⟨start, .Right, 0⟩ (initDistances start) = some 0 := by
    simp [initDistances, dlookup, hDne]
  have htD : Trail g start min_step max_step ⟨start, .Down, 0⟩ 0
      [(⟨start, .Down, 0⟩, 0)] := Trail.seedDown
  have htR : Trail g start min_step max_step ⟨start, .Right, 0⟩ 0
      [(⟨start, .Right, 0⟩, 0)] := Trail.seedRight
  have hdomD : TrailDom (initDistances start) [(⟨start, .Down, 0⟩, 0)] := by
    intro p hp
    simp only [List.mem_singleton] at hp
    subst hp
    exact ⟨0, hlookD, le_refl 0⟩
  have hdomR : TrailDom (initDistances start) [(⟨start, .Right, 0⟩, 0)] := by
    intro p hp
    simp only [List.mem_singleton] at hp
    subst hp
    exact ⟨0, hlookR, le_refl 0⟩
  refine ⟨?_, ?_, ?_, ?_, hlookD, hlookR, ?_⟩
  · intro k v hkv
    by_cases hk : k = ⟨start, .Down, 0⟩
    · subst hk
      rw [hlookD] at hkv
      obtain rfl : (0 : Nat) = v := Option.some.inj hkv
      exact ⟨_, htD, hdomD, by simp⟩
    · have hk2 : k = ⟨start, .Right, 0⟩ := by
        by_contra hk2
        have hka : ¬(⟨start, .Down, 0⟩ : Key) = k := fun e => hk e.symm
        have hkb : ¬(⟨start, .Right, 0⟩ : Key) = k := fun e => hk2 e.symm
        have : dlookup k (initDistances start) = none := by
          simp [initDistances, dlookup, hka, hkb]
        rw [this] at hkv
        cases hkv
      subst hk2
      rw [hlookR] at hkv
      obtain rfl : (0 : Nat) = v := Option.some.inj hkv
      exact ⟨_, htR, hdomR, by simp⟩
  · intro s hs
    simp only [initHeap, List.mem_cons, List.mem_singleton] at hs
    rcases hs with rfl | rfl | hf
    · exact ⟨_, htD, hdomD, by simp⟩
    · exact ⟨_, htR, hdomR, by simp⟩
    · cases hf
  · intro s hs
    simp only [initHeap, List.mem_cons, List.mem_singleton] at hs
    rcases hs with rfl | rfl | hf
    · exact ⟨0, hlookD, le_refl 0⟩
    · exact ⟨0, hlookR, le_refl 0⟩
    · cases hf
  · simp [initDistances, hDne]
  · intro p hp
    simp only [initDistances, List.mem_cons, List.mem_singleton] at hp
    rcases hp with rfl | rfl | hf
    · exact ⟨hstart, Nat.zero_le _⟩
    · exact ⟨hstart, Nat.zero_le _⟩
    · cases hf

/-- The invariant restricts to any sub-collection of the frontier. -/
theorem SInv.mono_heap {g : Grid} {start : Int × Int} {min_step max_step : Nat}
    {d : List (Key × Nat)} {h h' : List State}
    (hi : SInv g start min_step max_step d h) (hsub : ∀ s ∈ h', s ∈ h) :
    SInv g start min_step max_step d h' :=
  ⟨hi.dist_trail, fun s hs => hi.heap_trail s (hsub s hs),
    fun s hs => hi.heap_dist s (hsub s hs), hi.nodup, hi.seedD, hi.seedR,
    hi.dist_valid⟩

/-- `relax` only lowers recorded best costs. -/
theorem relax_dle {g : Grid} {min_step max_step : Nat} {st : State} :
    ∀ {l : List (Direction × (Int × Int))} {d : List (Key × Nat)}
      {h : List State}, Dle (relax g min_step max_step st l d h).1 d := by
  intro l
  induction l with
  | nil =>
    intro d h
    exact Dle.refl d
  | cons q rest ih =>
    intro d h
    obtain ⟨nd, xy⟩ := q
    simp only [relax]
    by_cases hr : rejectNext min_step max_step st d (mkNext g st nd xy) = true
    · simp only [hr, if_true]
      exact ih
    · simp only [Bool.not_eq_true] at hr
      simp only [hr, Bool.false_eq_true, if_false]
      have haccept := (rejectNext_eq_false_iff _ _ _ _ _).1 hr
      refine Dle.trans ih (dinsert_dle ?_)
      intro v0 hv0
      exact le_of_lt (haccept.2.1 v0 hv0)

/-- The streak of a pushed successor's key is positive. -/
theorem mkNext_steps_pos (g : Grid) (st : State) (nd : Direction)
    (xy : Int × Int) : 1 ≤ (mkNext g st nd xy).steps := by
  simp only [mkNext]
  split <;> omega

/-- Main preservation lemma: expanding a frontier state backed by a trail
through `relax` preserves the soundness invariant, and the growth of the
best-cost map is accounted for by the termination measure. -/
theorem relax_sInv {g : Grid} {start : Int × Int} {min_step max_step : Nat}
    (hstart : g.contains start = true) {st : State} {lt : List (Key × Nat)}
    (tst : Trail g start min_step max_step st.toKey st.cost lt)
    (hndt : (lt.map Prod.fst).Nodup) :
    ∀ {l : List (Direction × (Int × Int))} {d : List (Key × Nat)}
      {h : List State},
      (∀ p ∈ l, p ∈ g.adjacent st.coords st.direction) →
      SInv g start min_step max_step d h →
      TrailDom d lt →
      SInv g start min_step max_step (relax g min_step max_step st l d h).1
        (relax g min_step max_step st l d h).2 ∧
      d.length ≤ (relax g min_step max_step st l d h).1.length ∧
      (relax g min_step max_step st l d h).2.length +
          distSum (relax g min_step max_step st l d h).1 ≤
        h.length + distSum d +
          ((relax g min_step max_step st l d h).1.length - d.length) *
            (costBound g max_step + 1) := by
  intro l
  induction l with
  | nil =>
    intro d h hl hi hdom
    simp only [relax]
    exact ⟨hi, le_refl _, by simp⟩
  | cons q rest ih =>
    intro d h hl hi hdom
    obtain ⟨nd, xy⟩ := q
    simp only [relax]
    by_cases hr : rejectNext min_step max_step st d (mkNext g st nd xy) = true
    · simp only [hr, if_true]
      exact ih (fun p hp => hl p (List.mem_cons_of_mem _ hp)) hi hdom
    · simp only [Bool.not_eq_true] at hr
      simp only [hr, Bool.false_eq_true, if_false]
      have haccept := (rejectNext_eq_false_iff _ _ _ _ _).1 hr
      set next := mkNext g st nd xy with hnext
      have hadj : (nd, xy) ∈ g.adjacent st.coords st.direction :=
        hl (nd, xy) (List.mem_cons_self _ _)
      -- the pushed key takes one legal step from the expanded state's key
      have hlegal : LegalStep g min_step max_step st.toKey next.toKey := by
        refine ⟨hadj, rfl, haccept.1, ?_⟩
        intro hne
        exact haccept.2.2 hne
      have htrail' : Trail g start min_step max_step next.toKey
          (st.cost + g.cellCost next.toKey.coords)
          ((next.toKey, st.cost + g.cellCost next.toKey.coords) :: lt) :=
        Trail.step tst hlegal
      have hcost : next.cost = st.cost + g.cellCost next.toKey.coords := rfl
      -- the pushed key is fresh on the trail, so the extended trail is
      -- duplicate-free
      have hfresh : next.toKey ∉ lt.map Prod.fst := by
        intro hmem
        rw [List.mem_map] at hmem
        obtain ⟨p, hp, hpk⟩ := hmem
        obtain ⟨v, hv, hvle⟩ := hdom p hp
        rw [hpk] at hv
        have h1 := haccept.2.1 v hv
        have h2 := tst.mem_le p hp
        omega
      have hnd' : (((next.toKey, st.cost + g.cellCost next.toKey.coords) :: lt).map
          Prod.fst).Nodup := by
        simp only [List.map_cons, List.nodup_cons]
        exact ⟨hfresh, hndt⟩
      have hboundnext : next.cost ≤ costBound g max_step := by
        rw [hcost]
        exact Trail.cost_le_costBound hstart htrail' hnd'
      have hdle1 : Dle (dinsert next.toKey next.cost d) d := by
        refine dinsert_dle ?_
        intro v0 hv0
        exact le_of_lt (haccept.2.1 v0 hv0)
      have hseedne : ∀ dir0 : Direction,
          (⟨start, dir0, 0⟩ : Key) ≠ next.toKey := by
        intro dir0 e
        have hpos : 1 ≤ next.steps := mkNext_steps_pos g st nd xy
        have e2 : (0 : Nat) = next.steps := congrArg Key.steps e
        omega
      have hdom1 : TrailDom (dinsert next.toKey next.cost d) lt :=
        hdom.mono hdle1
      have hdomext : TrailDom (dinsert next.toKey next.cost d)
          ((next.toKey, st.cost + g.cellCost next.toKey.coords) :: lt) := by
        intro p hp
        rcases List.mem_cons.1 hp with rfl | hp
        · exact ⟨next.cost, dlookup_dinsert_self _ _ _, le_of_eq hcost⟩
        · exact hdom1 p hp
      have hi1 : SInv g start min_step max_step
          (dinsert next.toKey next.cost d) (next :: h) := by
        refine ⟨?_, ?_, ?_, nodup_keys_dinsert hi.nodup, ?_, ?_, ?_⟩
        · intro k v hkv
          by_cases hk : k = next.toKey
          · subst hk
            rw [dlookup_dinsert_self] at hkv
            obtain rfl : next.cost = v := Option.some.inj hkv
            exact ⟨_, hcost ▸ htrail', hcost ▸ hdomext, hnd'⟩
          · rw [dlookup_dinsert_ne _ _ _ _ hk] at hkv
            obtain ⟨l0, t0, dom0, nd0⟩ := hi.dist_trail k v hkv
            exact ⟨l0, t0, dom0.mono hdle1, nd0⟩
        · intro s hs
          rcases List.mem_cons.1 hs with rfl | hs
          · exact ⟨_, hcost ▸ htrail', hcost ▸ hdomext, hnd'⟩
          · obtain ⟨l0, t0, dom0, nd0⟩ := hi.heap_trail s hs
            exact ⟨l0, t0, dom0.mono hdle1, nd0⟩
        · intro s hs
          rcases List.mem_cons.1 hs with rfl | hs
          · exact ⟨next.cost, dlookup_dinsert_self _ _ _, le_refl _⟩
          · obtain ⟨v, hv, hvle⟩ := hi.heap_dist s hs
            obtain ⟨v', hv', hvle'⟩ := hdle1 s.toKey v hv
            exact ⟨v', hv', le_trans hvle' hvle⟩
        · rw [dlookup_dinsert_ne _ _ _ _ (hseedne .Down)]
          exact hi.seedD
        · rw [dlookup_dinsert_ne _ _ _ _ (hseedne .Right)]
          exact hi.seedR
        · intro p hp
          rcases mem_dinsert hp with rfl | hp
          · exact ⟨adjacent_sub_contains hadj, haccept.1⟩
          · exact hi.dist_valid p hp
      obtain ⟨hiF, hlenF, hmF⟩ :=
        ih (fun p hp => hl p (List.mem_cons_of_mem _ hp)) hi1 hdom1
      refine ⟨hiF, ?_, ?_⟩
      · -- the map length never decreases
        cases hfound : dlookup next.toKey d with
        | some v0 =>
          have : (dinsert next.toKey next.cost d).length = d.length := by
            apply length_dinsert_mem
            have := dlookup_eq_some_mem hfound
            exact List.mem_map_of_mem Prod.fst this
          omega
        | none =>
          have : (dinsert next.toKey next.cost d).length = d.length + 1 := by
            apply length_dinsert_fresh
            rw [← dlookup_eq_none_iff]
            exact hfound
          omega
      · -- measure accounting
        cases hfound : dlookup next.toKey d with
        | some v0 =>
          have hlen1 : (dinsert next.toKey next.cost d).length = d.length := by
            apply length_dinsert_mem
            exact List.mem_map_of_mem Prod.fst (dlookup_eq_some_mem hfound)
          have hsum1 : distSum (dinsert next.toKey next.cost d) + v0 =
              distSum d + next.cost := distSum_dinsert_found hfound
          have hlt : next.cost < v0 := haccept.2.1 v0 hfound
          rw [hlen1] at hmF
          simp only [List.length_cons] at hmF
          omega
        | none =>
          have hlen1 : (dinsert next.toKey next.cost d).length = d.length + 1 := by
            apply length_dinsert_fresh
            rw [← dlookup_eq_none_iff]
            exact hfound
          have hsum1 : distSum (dinsert next.toKey next.cost d) =
              distSum d + next.cost := distSum_dinsert_fresh hfound
          rw [hlen1] at hmF hlenF
          simp only [List.length_cons] at hmF
          -- split the `(Δ + 1) * (costBound + 1)` factor
          have hΔ : (relax g min_step max_step st rest
              (dinsert next.toKey next.cost d) (next :: h)).1.length - d.length =
              ((relax g min_step max_step st rest
                (dinsert next.toKey next.cost d) (next :: h)).1.length -
                (d.length + 1)) + 1 := by
            omega
          rw [hΔ, Nat.add_mul, one_mul]
          have hPQ := Nat.mul_le_mul_right (costBound g max_step + 1)
            (le_refl ((relax g min_step max_step st rest
              (dinsert next.toKey next.cost d) (next :: h)).1.length -
                (d.length + 1)))
          omega


/-! ### Termination: a measure that shrinks at every loop iteration -/

/-- Lexicographic-style measure: fresh keys weighted heavily, then frontier
size plus total recorded cost. -/
def loopMeasure (g : Grid) (max_step : Nat) (d : List (Key × Nat))
    (h : List State) : Nat :=
  (keyCount g max_step - d.length) * (4 * (costBound g max_step + 1) + 1) +
    (h.length + distSum d)

theorem SInv.dist_len_le {g : Grid} {start : Int × Int}
    {min_step max_step : Nat} {d : List (Key × Nat)} {h : List State}
    (hi : SInv g start min_step max_step d h) :
    d.length ≤ keyCount g max_step := by
  have hb : (d.map Prod.fst).length ≤ keyCount g max_step := by
    apply length_le_keyCount hi.nodup
    intro k hk
    rw [List.mem_map] at hk
    obtain ⟨p, hp, rfl⟩ := hk
    exact hi.dist_valid p hp
  simpa using hb

theorem measure_arith {A B CB dl dl' hl hl' l2 S S' : Nat}
    (hB : B = 4 * (CB + 1) + 1)
    (hd : dl ≤ dl') (hA : dl' ≤ A)
    (hpop : hl = hl' + 1)
    (hm : l2 + S' ≤ hl' + S + (dl' - dl) * (CB + 1)) :
    (A - dl') * B + (l2 + S') < (A - dl) * B + (hl + S) := by
  have hAe : A - dl = (A - dl') + (dl' - dl) := by omega
  have h1 : (A - dl) * B = (A - dl') * B + (dl' - dl) * B := by
    rw [hAe, Nat.add_mul]
  have h2 : (dl' - dl) * (CB + 1) ≤ (dl' - dl) * B :=
    Nat.mul_le_mul_left _ (by omega)
  omega

theorem loopMeasure_lt_of_pop {g : Grid} {max_step : Nat}
    {d : List (Key × Nat)} {h h' : List State} {st : State}
    (hpop : popMin h = some (st, h')) :
    loopMeasure g max_step d h' < loopMeasure g max_step d h := by
  unfold loopMeasure
  have := popMin_length hpop
  omega

/-- One expansion step preserves the invariant and shrinks the measure. -/
theorem sInv_step_expand {g : Grid} {start : Int × Int}
    {min_step max_step : Nat} {d : List (Key × Nat)} {h h' : List State}
    {st : State} (hstart : g.contains start = true)
    (hi : SInv g start min_step max_step d h)
    (hpop : popMin h = some (st, h'))
    (hstale : ltSome (dlookup st.toKey d) st.cost = false) :
    SInv g start min_step max_step
      (relax g min_step max_step st (g.adjacent st.coords st.direction) d h').1
      (relax g min_step max_step st (g.adjacent st.coords st.direction) d h').2 ∧
    loopMeasure g max_step
      (relax g min_step max_step st (g.adjacent st.coords st.direction) d h').1
      (relax g min_step max_step st (g.adjacent st.coords st.direction) d h').2 <
      loopMeasure g max_step d h := by
  obtain ⟨lt, tst, hdom, hndt⟩ := hi.heap_trail st (popMin_mem hpop)
  have hsub : ∀ s ∈ h', s ∈ h := fun s hs =>
    (popMin_perm hpop).mem_iff.2 (List.mem_cons_of_mem _ hs)
  obtain ⟨hiF, hlenF, hmF⟩ :=
    relax_sInv hstart tst hndt (fun p hp => hp) (hi.mono_heap hsub) hdom
  refine ⟨hiF, ?_⟩
  have hA := hiF.dist_len_le
  have hpoplen := popMin_length hpop
  unfold loopMeasure
  exact measure_arith rfl hlenF hA hpoplen hmF

/-- With the invariant and enough fuel, the loop always reaches one of its
two genuine exits (a returned cost or an emptied frontier). -/
theorem go_no_fuelout {g : Grid} {start endp : Int × Int}
    {min_step max_step : Nat} (hstart : g.contains start = true) :
    ∀ (fuel : Nat) (d : List (Key × Nat)) (h : List State),
      SInv g start min_step max_step d h →
      loopMeasure g max_step d h < fuel →
      (go g endp min_step max_step fuel d h).isSome = true := by
  intro fuel
  induction fuel with
  | zero =>
    intro d h hi hm
    exact absurd hm (Nat.not_lt_zero _)
  | succ n ih =>
    intro d h hi hm
    cases hpop : popMin h with
    | none => simp [go, hpop]
    | some q =>
      obtain ⟨st, h'⟩ := q
      by_cases hterm : st.coords = endp ∧ min_step ≤ st.steps
      · simp [go, hpop, hterm]
      · by_cases hstale : ltSome (dlookup st.toKey d) st.cost = true
        · have hdec : loopMeasure g max_step d h' < loopMeasure g max_step d h :=
            loopMeasure_lt_of_pop hpop
          have hsub : ∀ s ∈ h', s ∈ h := fun s hs =>
            (popMin_perm hpop).mem_iff.2 (List.mem_cons_of_mem _ hs)
          have hres := ih d h' (hi.mono_heap hsub) (by omega)
          simpa [go, hpop, hterm, hstale] using hres
        · simp only [Bool.not_eq_true] at hstale
          obtain ⟨hiF, hdec⟩ := sInv_step_expand hstart hi hpop hstale
          have hres := ih _ _ hiF (by omega)
          simpa [go, hpop, hterm, hstale] using hres

/-- Soundness: a returned cost is the cost of a constraint-satisfying path
from `start` to `endp`. -/
theorem go_sound {g : Grid} {start endp : Int × Int} {min_step max_step : Nat}
    (hstart : g.contains start = true) :
    ∀ (fuel : Nat) (d : List (Key × Nat)) (h : List State),
      SInv g start min_step max_step d h →
      ∀ c, go g endp min_step max_step fuel d h = some (some c) →
        c ∈ pathCosts g start endp min_step max_step := by
  intro fuel
  induction fuel with
  | zero =>
    intro d h hi c hc
    simp [go] at hc
  | succ n ih =>
    intro d h hi c hc
    cases hpop : popMin h with
    | none => simp [go, hpop] at hc
    | some q =>
      obtain ⟨st, h'⟩ := q
      by_cases hterm : st.coords = endp ∧ min_step ≤ st.steps
      · simp only [go, hpop] at hc
        rw [if_pos hterm] at hc
        obtain rfl : st.cost = c := by
          simpa using hc
        obtain ⟨lt, tst, hdom, hndt⟩ := hi.heap_trail st (popMin_mem hpop)
        exact ⟨st.toKey, lt, tst, hterm.1, hterm.2⟩
      · by_cases hstale : ltSome (dlookup st.toKey d) st.cost = true
        · have hsub : ∀ s ∈ h', s ∈ h := fun s hs =>
            (popMin_perm hpop).mem_iff.2 (List.mem_cons_of_mem _ hs)
          refine ih d h' (hi.mono_heap hsub) c ?_
          simpa [go, hpop, hterm, hstale] using hc
        · simp only [Bool.not_eq_true] at hstale
          obtain ⟨hiF, hdec⟩ := sInv_step_expand hstart hi hpop hstale
          refine ih _ _ hiF c ?_
          simpa [go, hpop, hterm, hstale] using hc


/-! ### Completeness: the classic Dijkstra frontier invariant -/

/-- Ghost completeness invariant, relative to a record `E` of the keys that
have been expanded and the cost at which each was expanded: successors of
expanded keys are recorded, no end-qualifying key was ever expanded, and
every best-cost entry is backed by a live frontier entry or an expansion. -/
structure DInv (g : Grid) (start endp : Int × Int) (min_step max_step : Nat)
    (d : List (Key × Nat)) (h : List State) (E : List (Key × Nat)) : Prop where
  exp_step : ∀ k w, dlookup k E = some w →
    ∀ k', LegalStep g min_step max_step k k' →
      ∃ v', dlookup k' d = some v' ∧ v' ≤ w + g.cellCost k'.coords
  exp_not_end : ∀ k w, dlookup k E = some w →
    ¬(k.coords = endp ∧ min_step ≤ k.steps)
  dist_backed : ∀ k v, dlookup k d = some v →
    (∃ s ∈ h, s.toKey = k ∧ s.cost = v) ∨ ∃ w, dlookup k E = some w ∧ w ≤ v

theorem dInv_init {g : Grid} {start endp : Int × Int}
    {min_step max_step : Nat} :
    DInv g start endp min_step max_step (initDistances start) (initHeap start)
      [] := by
  refine ⟨?_, ?_, ?_⟩
  · intro k w hkw
    simp [dlookup] at hkw
  · intro k w hkw
    simp [dlookup] at hkw
  · intro k v hkv
    left
    by_cases hk : k = ⟨start, .Down, 0⟩
    · subst hk
      have : dlookup (⟨start, .Down, 0⟩ : Key) (initDistances start) = some 0 := by
        simp [initDistances, dlookup]
      rw [this] at hkv
      obtain rfl : (0 : Nat) = v := Option.some.inj hkv
      refine ⟨⟨0, start, .Down, 0⟩, ?_, rfl, rfl⟩
      simp [initHeap]
    · by_cases hk2 : k = ⟨start, .Right, 0⟩
      · subst hk2
        have hne : ¬(⟨start, .Down, 0⟩ : Key) = ⟨start, .Right, 0⟩ := by
          intro e
          cases e
        have : dlookup (⟨start, .Right, 0⟩ : Key) (initDistances start) = some 0 := by
          simp [initDistances, dlookup, hne]
        rw [this] at hkv
        obtain rfl : (0 : Nat) = v := Option.some.inj hkv
        refine ⟨⟨0, start, .Right, 0⟩, ?_, rfl, rfl⟩
        simp [initHeap]
      · have hka : ¬(⟨start, .Down, 0⟩ : Key) = k := fun e => hk e.symm
        have hkb : ¬(⟨start, .Right, 0⟩ : Key) = k := fun e => hk2 e.symm
        have : dlookup k (initDistances start) = none := by
          simp [initDistances, dlookup, hka, hkb]
        rw [this] at hkv
        cases hkv

/-- Every legal successor offered to `relax` via its worklist ends up with a
recorded best cost at most the offered cost. -/
theorem relax_covers {g : Grid} {min_step max_step : Nat} {st : State} :
    ∀ {l : List (Direction × (Int × Int))} {d : List (Key × Nat)}
      {h : List State} {k' : Key},
      (k'.direction, k'.coords) ∈ l →
      k'.steps = (if k'.direction = st.direction then st.steps + 1 else 1) →
      k'.steps ≤ max_step →
      (k'.direction ≠ st.direction → min_step ≤ st.steps) →
      ∃ v', dlookup k' (relax g min_step max_step st l d h).1 = some v' ∧
        v' ≤ st.cost + g.cellCost k'.coords := by
  intro l
  induction l with
  | nil =>
    intro d h k' hmem _ _ _
    cases hmem
  | cons q rest ih =>
    intro d h k' hmem hsteps hmax hturn
    obtain ⟨nd, xy⟩ := q
    rcases List.mem_cons.1 hmem with hhead | htail
    · obtain ⟨rfl, rfl⟩ : nd = k'.direction ∧ xy = k'.coords := by
        have h1 := congrArg Prod.fst hhead
        have h2 := congrArg Prod.snd hhead
        exact ⟨h1.symm, h2.symm⟩
      have hkey : (mkNext g st k'.direction k'.coords).toKey = k' := by
        obtain ⟨kc, kd, ks⟩ := k'
        simp only [mkNext, State.toKey, Key.mk.injEq]
        exact ⟨by trivial, by trivial, hsteps.symm⟩
      have hcost : (mkNext g st k'.direction k'.coords).cost =
          st.cost + g.cellCost k'.coords := rfl
      simp only [relax]
      by_cases hr : rejectNext min_step max_step st d
          (mkNext g st k'.direction k'.coords) = true
      · -- the reject can only be the already-recorded-cheaper case
        simp only [hr, if_true]
        by_cases hB : ∃ v0, dlookup k' d = some v0 ∧
            v0 ≤ st.cost + g.cellCost k'.coords
        · obtain ⟨v0, hv0, hv0le⟩ := hB
          obtain ⟨v1, hv1, hv1le⟩ := relax_dle (l := rest) (h := h) k' v0 hv0
          exact ⟨v1, hv1, le_trans hv1le hv0le⟩
        · exfalso
          have hfalse : rejectNext min_step max_step st d
              (mkNext g st k'.direction k'.coords) = false := by
            rw [rejectNext_eq_false_iff]
            refine ⟨?_, ?_, ?_⟩
            · have hsk : (mkNext g st k'.direction k'.coords).steps = k'.steps :=
                congrArg Key.steps hkey
              rw [hsk]
              exact hmax
            · intro v hv
              rw [hkey] at hv
              by_contra hcon
              rw [Nat.not_lt] at hcon
              exact hB ⟨v, hv, by rw [← hcost]; exact hcon⟩
            · intro hne
              exact hturn (by simpa [mkNext] using hne)
          rw [hfalse] at hr
          cases hr
      · simp only [Bool.not_eq_true] at hr
        simp only [hr, Bool.false_eq_true, if_false]
        have hself : dlookup k'
            (dinsert (mkNext g st k'.direction k'.coords).toKey
              (mkNext g st k'.direction k'.coords).cost d) =
            some (mkNext g st k'.direction k'.coords).cost := by
          rw [hkey]
          exact dlookup_dinsert_self _ _ _
        obtain ⟨v1, hv1, hv1le⟩ := relax_dle (l := rest)
          (h := mkNext g st k'.direction k'.coords :: h) k'
          (mkNext g st k'.direction k'.coords).cost hself
        exact ⟨v1, hv1, le_trans hv1le (le_of_eq hcost)⟩
    · -- the matching entry is later in the worklist
      simp only [relax]
      by_cases hr : rejectNext min_step max_step st d (mkNext g st nd xy) = true
      · simp only [hr, if_true]
        exact ih htail hsteps hmax hturn
      · simp only [Bool.not_eq_true] at hr
        simp only [hr, Bool.false_eq_true, if_false]
        exact ih htail hsteps hmax hturn

/-- `relax` keeps every best-cost entry backed by a frontier entry or an
expansion record. -/
theorem relax_backed {g : Grid} {min_step max_step : Nat} {st : State}
    {E : List (Key × Nat)} :
    ∀ {l : List (Direction × (Int × Int))} {d : List (Key × Nat)}
      {h : List State},
      (∀ k v, dlookup k d = some v →
        (∃ s ∈ h, s.toKey = k ∧ s.cost = v) ∨
          ∃ w, dlookup k E = some w ∧ w ≤ v) →
      ∀ k v, dlookup k (relax g min_step max_step st l d h).1 = some v →
        (∃ s ∈ (relax g min_step max_step st l d h).2, s.toKey = k ∧
          s.cost = v) ∨ ∃ w, dlookup k E = some w ∧ w ≤ v := by
  intro l
  induction l with
  | nil =>
    intro d h hback k v hkv
    simp only [relax] at hkv ⊢
    exact hback k v hkv
  | cons q rest ih =>
    intro d h hback k v hkv
    obtain ⟨nd, xy⟩ := q
    simp only [relax] at hkv ⊢
    by_cases hr : rejectNext min_step max_step st d (mkNext g st nd xy) = true
    · simp only [hr, if_true] at hkv ⊢
      exact ih hback k v hkv
    · simp only [Bool.not_eq_true] at hr
      simp only [hr, Bool.false_eq_true, if_false] at hkv ⊢
      refine ih ?_ k v hkv
      intro k1 v1 hk1
      by_cases hke : k1 = (mkNext g st nd xy).toKey
      · subst hke
        rw [dlookup_dinsert_self] at hk1
        obtain rfl : (mkNext g st nd xy).cost = v1 := Option.some.inj hk1
        exact Or.inl ⟨mkNext g st nd xy, List.mem_cons_self _ _, rfl, rfl⟩
      · rw [dlookup_dinsert_ne _ _ _ _ hke] at hk1
        rcases hback k1 v1 hk1 with ⟨s, hs, hsk, hsc⟩ | hE
        · exact Or.inl ⟨s, List.mem_cons_of_mem _ hs, hsk, hsc⟩
        · exact Or.inr hE

/-- A stale pop preserves the completeness invariant. -/
theorem dInv_step_stale {g : Grid} {start endp : Int × Int}
    {min_step max_step : Nat} {d : List (Key × Nat)} {h h' : List State}
    {st : State} {E : List (Key × Nat)}
    (hD : DInv g start endp min_step max_step d h E)
    (hpop : popMin h = some (st, h'))
    (hstale : ltSome (dlookup st.toKey d) st.cost = true) :
    DInv g start endp min_step max_step d h' E := by
  refine ⟨hD.exp_step, hD.exp_not_end, ?_⟩
  intro k v hkv
  rcases hD.dist_backed k v hkv with ⟨s, hs, hsk, hsc⟩ | hE
  · left
    have hsh : s ∈ st :: h' := (popMin_perm hpop).mem_iff.1 hs
    rcases List.mem_cons.1 hsh with rfl | hsh'
    · exfalso
      rw [ltSome_eq_true_iff] at hstale
      obtain ⟨vv, hvv, hvvlt⟩ := hstale
      rw [← hsk] at hkv
      rw [hkv] at hvv
      obtain rfl : v = vv := Option.some.inj hvv
      omega
    · exact ⟨s, hsh', hsk, hsc⟩
  · exact Or.inr hE

/-- An expansion step preserves the completeness invariant, recording the
expanded key at the cost it was expanded. -/
theorem dInv_step_expand {g : Grid} {start endp : Int × Int}
    {min_step max_step : Nat} {d : List (Key × Nat)} {h h' : List State}
    {st : State} {E : List (Key × Nat)}
    (hi : SInv g start min_step max_step d h)
    (hD : DInv g start endp min_step max_step d h E)
    (hpop : popMin h = some (st, h'))
    (hterm : ¬(st.coords = endp ∧ min_step ≤ st.steps))
    (hstale : ltSome (dlookup st.toKey d) st.cost = false) :
    DInv g start endp min_step max_step
      (relax g min_step max_step st (g.adjacent st.coords st.direction) d h').1
      (relax g min_step max_step st (g.adjacent st.coords st.direction) d h').2
      (dinsert st.toKey st.cost E) := by
  have hlook : dlookup st.toKey d = some st.cost := by
    obtain ⟨v, hv, hvle⟩ := hi.heap_dist st (popMin_mem hpop)
    rw [ltSome_eq_false_iff] at hstale
    have hge := hstale v hv
    rw [hv]
    have : v = st.cost := by omega
    rw [this]
  refine ⟨?_, ?_, ?_⟩
  · intro k w hkw k' hleg
    by_cases hk : k = st.toKey
    · subst hk
      rw [dlookup_dinsert_self] at hkw
      obtain rfl : st.cost = w := Option.some.inj hkw
      exact relax_covers hleg.1 hleg.2.1 hleg.2.2.1 hleg.2.2.2
    · rw [dlookup_dinsert_ne _ _ _ _ hk] at hkw
      obtain ⟨v', hv', hvle'⟩ := hD.exp_step k w hkw k' hleg
      obtain ⟨v'', hv'', hvle''⟩ := relax_dle k' v' hv'
      exact ⟨v'', hv'', le_trans hvle'' hvle'⟩
  · intro k w hkw
    by_cases hk : k = st.toKey
    · subst hk
      exact hterm
    · rw [dlookup_dinsert_ne _ _ _ _ hk] at hkw
      exact hD.exp_not_end k w hkw
  · apply relax_backed
    intro k v hkv
    rcases hD.dist_backed k v hkv with ⟨s, hs, hsk, hsc⟩ | ⟨w, hw, hwle⟩
    · by_cases hsst : s = st
      · subst hsst
        right
        refine ⟨s.cost, ?_, ?_⟩
        · rw [← hsk]
          exact dlookup_dinsert_self _ _ _
        · omega
      · left
        have hsh : s ∈ st :: h' := (popMin_perm hpop).mem_iff.1 hs
        rcases List.mem_cons.1 hsh with heq | hsh'
        · exact absurd heq hsst
        · exact ⟨s, hsh', hsk, hsc⟩
    · right
      by_cases hk : k = st.toKey
      · subst hk
        refine ⟨st.cost, dlookup_dinsert_self _ _ _, ?_⟩
        rw [hlook] at hkv
        obtain rfl : st.cost = v := Option.some.inj hkv
        exact le_refl _
      · rw [dlookup_dinsert_ne _ _ _ _ hk]
        exact ⟨w, hw, hwle⟩

/-- Along any trail, some live frontier entry or expansion record stays at
or below the trail's cost. -/
theorem trail_heap_witness {g : Grid} {start endp : Int × Int}
    {min_step max_step : Nat} {d : List (Key × Nat)} {h : List State}
    {E : List (Key × Nat)} (hi : SInv g start min_step max_step d h)
    (hD : DInv g start endp min_step max_step d h E) :
    ∀ {k : Key} {c : Nat} {l : List (Key × Nat)},
      Trail g start min_step max_step k c l →
      (∃ s ∈ h, s.cost ≤ c) ∨ (∃ w, dlookup k E = some w ∧ w ≤ c) := by
  intro k c l t
  induction t with
  | seedDown =>
    rcases hD.dist_backed _ 0 hi.seedD with ⟨s, hs, hsk, hsc⟩ | ⟨w, hw, hwle⟩
    · exact Or.inl ⟨s, hs, le_of_eq hsc⟩
    · exact Or.inr ⟨w, hw, hwle⟩
  | seedRight =>
    rcases hD.dist_backed _ 0 hi.seedR with ⟨s, hs, hsk, hsc⟩ | ⟨w, hw, hwle⟩
    · exact Or.inl ⟨s, hs, le_of_eq hsc⟩
    · exact Or.inr ⟨w, hw, hwle⟩
  | @step k0 c0 l0 k1 t0 hleg ih =>
    rcases ih with ⟨s, hs, hsle⟩ | ⟨w, hw, hwle⟩
    · exact Or.inl ⟨s, hs, le_trans hsle (Nat.le_add_right _ _)⟩
    · obtain ⟨v', hv', hvle'⟩ := hD.exp_step k0 w hw k1 hleg
      rcases hD.dist_backed k1 v' hv' with ⟨s, hs, hsk, hsc⟩ | ⟨w', hw', hwle'⟩
      · refine Or.inl ⟨s, hs, ?_⟩
        have hcell := cellCost_le_maxCell g k1.coords
        omega
      · refine Or.inr ⟨w', hw', ?_⟩
        omega

/-- Completeness: whenever some constraint-satisfying path of cost `p`
exists, the loop returns a cost at most `p`. -/
theorem go_complete {g : Grid} {start endp : Int × Int}
    {min_step max_step : Nat} (hstart : g.contains start = true) :
    ∀ (fuel : Nat) (d : List (Key × Nat)) (h : List State)
      (E : List (Key × Nat)),
      SInv g start min_step max_step d h →
      DInv g start endp min_step max_step d h E →
      loopMeasure g max_step d h < fuel →
      ∀ p ∈ pathCosts g start endp min_step max_step,
        ∃ c, c ≤ p ∧ go g endp min_step max_step fuel d h = some (some c) := by
  intro fuel
  induction fuel with
  | zero =>
    intro d h E hi hD hm p hp
    exact absurd hm (Nat.not_lt_zero _)
  | succ n ih =>
    intro d h E hi hD hm p hp
    obtain ⟨kf, lf, tf, hfe, hfs⟩ := hp
    have hwit : ∃ s ∈ h, s.cost ≤ p := by
      rcases trail_heap_witness hi hD tf with hwit | ⟨w, hw, hwle⟩
      · exact hwit
      · exact absurd ⟨hfe, hfs⟩ (hD.exp_not_end kf w hw)
    obtain ⟨sw, hsw, hswle⟩ := hwit
    cases hpop : popMin h with
    | none =>
      rw [popMin_eq_none] at hpop
      subst hpop
      cases hsw
    | some q =>
      obtain ⟨st, h'⟩ := q
      have hstle : st.cost ≤ p := le_trans (popMin_min hpop sw hsw) hswle
      by_cases hterm : st.coords = endp ∧ min_step ≤ st.steps
      · refine ⟨st.cost, hstle, ?_⟩
        simp [go, hpop, hterm]
      · by_cases hstale : ltSome (dlookup st.toKey d) st.cost = true
        · have hsub : ∀ s ∈ h', s ∈ h := fun s hs =>
            (popMin_perm hpop).mem_iff.2 (List.mem_cons_of_mem _ hs)
          have hdec : loopMeasure g max_step d h' < loopMeasure g max_step d h :=
            loopMeasure_lt_of_pop hpop
          obtain ⟨c, hc, hgo⟩ := ih d h' E (hi.mono_heap hsub)
            (dInv_step_stale hD hpop hstale) (by omega) p
            ⟨kf, lf, tf, hfe, hfs⟩
          refine ⟨c, hc, ?_⟩
          simpa [go, hpop, hterm, hstale] using hgo
        · simp only [Bool.not_eq_true] at hstale
          obtain ⟨hiF, hdec⟩ := sInv_step_expand hstart hi hpop hstale
          have hDF := dInv_step_expand hi hD hpop hterm hstale
          obtain ⟨c, hc, hgo⟩ := ih _ _ _ hiF hDF (by omega) p
            ⟨kf, lf, tf, hfe, hfs⟩
          refine ⟨c, hc, ?_⟩
          simpa [go, hpop, hterm, hstale] using hgo


/-! ### Top-level characterization of `shortest_path` -/

theorem loopMeasure_init_lt (g : Grid) (max_step : Nat) (start : Int × Int) :
    loopMeasure g max_step (initDistances start) (initHeap start) <
      fuelBound g max_step := by
  have hlen : (initDistances start).length = 2 := rfl
  have hheap : (initHeap start).length = 2 := rfl
  have hsum : distSum (initDistances start) = 0 := rfl
  unfold loopMeasure fuelBound
  rw [hlen, hheap, hsum]
  have hmul : (keyCount g max_step - 2) *
      (4 * (costBound g max_step + 1) + 1) ≤
      keyCount g max_step * (4 * (costBound g max_step + 1) + 1) :=
    Nat.mul_le_mul_right _ (Nat.sub_le _ _)
  omega

/-- The characterization of `shortest_path`: a returned cost is the least
cost of a constraint-satisfying path, and `none` is returned exactly when no
such path exists. -/
theorem shortest_path_spec {g : Grid} {start endp : Int × Int}
    {min_step max_step : Nat} (hstart : g.contains start = true) :
    (∀ c, g.shortest_path start endp min_step max_step = some c →
      IsLeast (pathCosts g start endp min_step max_step) c) ∧
    (g.shortest_path start endp min_step max_step = none ↔
      pathCosts g start endp min_step max_step = ∅) := by
  have hi0 : SInv g start min_step max_step (initDistances start)
      (initHeap start) := sInv_init hstart
  have hD0 : DInv g start endp min_step max_step (initDistances start)
      (initHeap start) [] := dInv_init
  have hm0 := loopMeasure_init_lt g max_step start
  constructor
  · intro c hc
    have hgo : go g endp min_step max_step (fuelBound g max_step)
        (initDistances start) (initHeap start) = some (some c) :=
      join_eq_some hc
    constructor
    · exact go_sound hstart _ _ _ hi0 c hgo
    · intro p hp
      obtain ⟨c', hc', hgo'⟩ := go_complete hstart _ _ _ _ hi0 hD0 hm0 p hp
      rw [hgo] at hgo'
      obtain rfl : c = c' := by
        have h1 := Option.some.inj hgo'
        exact Option.some.inj h1
      exact hc'
  · constructor
    · intro hnone
      rw [Set.eq_empty_iff_forall_not_mem]
      intro p hp
      obtain ⟨c, hc, hgo⟩ := go_complete hstart _ _ _ _ hi0 hD0 hm0 p hp
      unfold Grid.shortest_path at hnone
      rw [hgo] at hnone
      simp at hnone
    · intro hempty
      have hsome : (go g endp min_step max_step (fuelBound g max_step)
          (initDistances start) (initHeap start)).isSome = true :=
        go_no_fuelout hstart _ _ _ hi0 hm0
      cases hgo : go g endp min_step max_step (fuelBound g max_step)
          (initDistances start) (initHeap start) with
      | none =>
        rw [hgo] at hsome
        cases hsome
      | some o =>
        cases o with
        | none =>
          unfold Grid.shortest_path
          rw [hgo]
          rfl
        | some c =>
          have hmem := go_sound hstart _ _ _ hi0 c hgo
          rw [hempty] at hmem
          cases hmem

/-! ### Monotonicity of the path set in the streak parameters -/

theorem Trail.mono_max {g : Grid} {start : Int × Int}
    {min_step max_step max' : Nat} {k : Key} {c : Nat} {l : List (Key × Nat)}
    (hmm : max_step ≤ max') (t : Trail g start min_step max_step k c l) :
    Trail g start min_step max' k c l := by
  induction t with
  | seedDown => exact Trail.seedDown
  | seedRight => exact Trail.seedRight
  | @step k0 c0 l0 k1 t0 hleg ih =>
    exact Trail.step ih ⟨hleg.1, hleg.2.1, le_trans hleg.2.2.1 hmm, hleg.2.2.2⟩

theorem Trail.anti_min {g : Grid} {start : Int × Int}
    {min_step min' max_step : Nat} {k : Key} {c : Nat} {l : List (Key × Nat)}
    (hmm : min_step ≤ min') (t : Trail g start min' max_step k c l) :
    Trail g start min_step max_step k c l := by
  induction t with
  | seedDown => exact Trail.seedDown
  | seedRight => exact Trail.seedRight
  | @step k0 c0 l0 k1 t0 hleg ih =>
    exact Trail.step ih
      ⟨hleg.1, hleg.2.1, hleg.2.2.1, fun hne => le_trans hmm (hleg.2.2.2 hne)⟩

theorem pathCosts_mono_max {g : Grid} {start endp : Int × Int}
    {min_step max_step max' : Nat} (hmm : max_step ≤ max') :
    pathCosts g start endp min_step max_step ⊆
      pathCosts g start endp min_step max' := by
  rintro p ⟨k, l, t, he, hs⟩
  exact ⟨k, l, t.mono_max hmm, he, hs⟩

theorem pathCosts_anti_min {g : Grid} {start endp : Int × Int}
    {min_step min' max_step : Nat} (hmm : min_step ≤ min') :
    pathCosts g start endp min' max_step ⊆
      pathCosts g start endp min_step max_step := by
  rintro p ⟨k, l, t, he, hs⟩
  exact ⟨k, l, t.anti_min hmm, he, le_trans hmm hs⟩

/-- Interpret the optional result as an extended natural, `none` being
`⊤` (no path). -/
def costOf (o : Option Nat) : ℕ∞ :=
  o.elim ⊤ (fun c => (c : ℕ∞))

/-- A larger path set can only lower the returned cost. -/
theorem costOf_le_of_subset {g : Grid} {start endp : Int × Int}
    {m1 x1 m2 x2 : Nat} (hstart : g.contains start = true)
    (hsub : pathCosts g start endp m1 x1 ⊆ pathCosts g start endp m2 x2) :
    costOf (g.shortest_path start endp m2 x2) ≤
      costOf (g.shortest_path start endp m1 x1) := by
  cases h1 : g.shortest_path start endp m1 x1 with
  | none => simp [costOf]
  | some c1 =>
    have hL1 := (shortest_path_spec hstart).1 c1 h1
    have hmem2 : c1 ∈ pathCosts g start endp m2 x2 := hsub hL1.1
    cases h2 : g.shortest_path start endp m2 x2 with
    | none =>
      have hemp := (shortest_path_spec hstart).2.1 h2
      rw [hemp] at hmem2
      cases hmem2
    | some c2 =>
      have hL2 := (shortest_path_spec hstart).1 c2 h2
      have hle : c2 ≤ c1 := hL2.2 hmem2
      simp only [costOf, Option.elim]
      exact_mod_cast hle

/-! ### Claim theorems: C1, C4, C5 -/

/-- C1: for a non-empty rectangular grid, in-bounds start and end, and
positive `min_step ≤ max_step`, a returned cost is the least cost over all
constraint-satisfying paths of the expanded state graph from the seeded
start to `endp` (no-reversal, min-streak-before-turn, max-streak and final
streak at least `min_step`; entry costs only, the start cell never
charged). -/
theorem C1_returned_cost_is_least (g : Grid) (start endp : Int × Int)
    (min_step max_step : Nat) (hrect : g.rectangular) (hne : g.points ≠ [])
    (hstart : g.contains start = true) (hend : g.contains endp = true)
    (hmin : 1 ≤ min_step) (hminmax : min_step ≤ max_step) (c : Nat)
    (hres : g.shortest_path start endp min_step max_step = some c) :
    IsLeast (pathCosts g start endp min_step max_step) c :=
  (shortest_path_spec hstart).1 c hres

/-- Witness for C1 on the 2 by 2 grid: the returned cost 2 is least. -/
theorem C1_returned_cost_is_least_witness :
    IsLeast (pathCosts grid2 (0, 0) (1, 1) 1 1) 2 :=
  C1_returned_cost_is_least grid2 (0, 0) (1, 1) 1 1 (by decide) (by decide)
    (by decide) (by decide) (by decide) (by decide) 2 (by decide)

/-- C4: `shortest_path` returns `none` exactly when no constraint-satisfying
path exists (the loop can only end by returning or emptying the frontier,
never by a panic: the embedded function is total with an `Option` result);
in particular on the single-row grid, where reaching the end would need four
consecutive `Right` steps against `max_step = 3`, it returns `none`. -/
theorem C4_none_iff_no_path :
    (∀ (g : Grid) (start endp : Int × Int) (min_step max_step : Nat),
      g.contains start = true →
      (g.shortest_path start endp min_step max_step = none ↔
        pathCosts g start endp min_step max_step = ∅)) ∧
    grid1row.shortest_path (0, 0) (4, 0) 1 3 = none := by
  constructor
  · intro g start endp min_step max_step hstart
    exact (shortest_path_spec hstart).2
  · decide

/-- Witness for C4: the single-row grid has no constraint-satisfying path. -/
theorem C4_none_iff_no_path_witness :
    pathCosts grid1row (0, 0) (4, 0) 1 3 = ∅ :=
  (C4_none_iff_no_path.1 grid1row (0, 0) (4, 0) 1 3 (by decide)).1
    C4_none_iff_no_path.2

/-- C5: raising `max_step` (with `min_step` fixed) never increases the
returned cost, and raising `min_step` (with `max_step` fixed) never
decreases it, reading `none` as `⊤`. -/
theorem C5_monotonicity (g : Grid) (start endp : Int × Int)
    (min_step max_step min' max' : Nat)
    (hstart : g.contains start = true)
    (hminmax : min_step ≤ max_step) (hmax : max_step ≤ max')
    (hmin : min_step ≤ min') :
    costOf (g.shortest_path start endp min_step max') ≤
      costOf (g.shortest_path start endp min_step max_step) ∧
    costOf (g.shortest_path start endp min_step max_step) ≤
      costOf (g.shortest_path start endp min' max_step) := by
  constructor
  · exact costOf_le_of_subset hstart (pathCosts_mono_max hmax)
  · exact costOf_le_of_subset hstart (pathCosts_anti_min hmin)

/-- Witness for C5 on the 2 by 2 grid. -/
theorem C5_monotonicity_witness :
    costOf (grid2.shortest_path (0, 0) (1, 1) 1 2) ≤
      costOf (grid2.shortest_path (0, 0) (1, 1) 1 1) ∧
    costOf (grid2.shortest_path (0, 0) (1, 1) 1 1) ≤
      costOf (grid2.shortest_path (0, 0) (1, 1) 2 1) :=
  C5_monotonicity grid2 (0, 0) (1, 1) 1 1 2 2 (by decide) (by decide)
    (by decide) (by decide)


/-! ### C6: the additions computed by the expansion loop -/

/-- Instrumented expansion loop, additionally recording every addition
`cost + points[y][x]` it computes (one per adjacent successor, computed
before the three checks, exactly as the `next` state is built in the
source). -/
def relaxAdds (g : Grid) (min_step max_step : Nat) (st : State) :
    List (Direction × (Int × Int)) → List (Key × Nat) → List State →
      List Nat → List (Key × Nat) × List State × List Nat
  | [], d, h, acc => (d, h, acc)
  | (next_direction, xy) :: rest, d, h, acc =>
    let next := mkNext g st next_direction xy
    if rejectNext min_step max_step st d next then
      relaxAdds g min_step max_step st rest d h (next.cost :: acc)
    else
      relaxAdds g min_step max_step st rest (dinsert next.toKey next.cost d)
        (next :: h) (next.cost :: acc)

/-- Instrumented search loop accumulating all computed additions. -/
def goAdds (g : Grid) (endp : Int × Int) (min_step max_step : Nat) :
    Nat → List (Key × Nat) → List State → List Nat →
      Option (Option Nat) × List Nat
  | 0, _, _, acc => (none, acc)
  | fuel + 1, d, h, acc =>
    match popMin h with
    | none => (some none, acc)
    | some (st, h') =>
      if st.coords = endp ∧ min_step ≤ st.steps then (some (some st.cost), acc)
      else if ltSome (dlookup st.toKey d) st.cost then
        goAdds g endp min_step max_step fuel d h' acc
      else
        let dha := relaxAdds g min_step max_step st
          (g.adjacent st.coords st.direction) d h' acc
        goAdds g endp min_step max_step fuel dha.1 dha.2.1 dha.2.2

/-- All additions computed during one full run of `shortest_path`. -/
def searchAdds (g : Grid) (start endp : Int × Int)
    (min_step max_step : Nat) : List Nat :=
  (goAdds g endp min_step max_step (fuelBound g max_step)
    (initDistances start) (initHeap start) []).2

/-- The instrumentation does not change the map and frontier computed. -/
theorem relaxAdds_proj {g : Grid} {min_step max_step : Nat} {st : State} :
    ∀ {l : List (Direction × (Int × Int))} {d : List (Key × Nat)}
      {h : List State} {acc : List Nat},
      (relaxAdds g min_step max_step st l d h acc).1 =
        (relax g min_step max_step st l d h).1 ∧
      (relaxAdds g min_step max_step st l d h acc).2.1 =
        (relax g min_step max_step st l d h).2 := by
  intro l
  induction l with
  | nil =>
    intro d h acc
    exact ⟨rfl, rfl⟩
  | cons q rest ih =>
    intro d h acc
    obtain ⟨nd, xy⟩ := q
    simp only [relaxAdds, relax]
    by_cases hr : rejectNext min_step max_step st d (mkNext g st nd xy) = true
    · simp only [hr, if_true]
      exact ih
    · simp only [Bool.not_eq_true] at hr
      simp only [hr, Bool.false_eq_true, if_false]
      exact ih

theorem relaxAdds_proj_d {g : Grid} {min_step max_step : Nat} {st : State}
    {l : List (Direction × (Int × Int))} {d : List (Key × Nat)}
    {h : List State} {acc : List Nat} :
    (relaxAdds g min_step max_step st l d h acc).1 =
      (relax g min_step max_step st l d h).1 :=
  relaxAdds_proj.1

theorem relaxAdds_proj_h {g : Grid} {min_step max_step : Nat} {st : State}
    {l : List (Direction × (Int × Int))} {d : List (Key × Nat)}
    {h : List State} {acc : List Nat} :
    (relaxAdds g min_step max_step st l d h acc).2.1 =
      (relax g min_step max_step st l d h).2 :=
  relaxAdds_proj.2

/-- The instrumentation does not change the search result. -/
theorem goAdds_fst (g : Grid) (endp : Int × Int) (min_step max_step : Nat) :
    ∀ (fuel : Nat) (d : List (Key × Nat)) (h : List State) (acc : List Nat),
      (goAdds g endp min_step max_step fuel d h acc).1 =
        go g endp min_step max_step fuel d h := by
  intro fuel
  induction fuel with
  | zero =>
    intro d h acc
    rfl
  | succ n ih =>
    intro d h acc
    cases hpop : popMin h with
    | none => simp [goAdds, go, hpop]
    | some q =>
      obtain ⟨st, h'⟩ := q
      by_cases hterm : st.coords = endp ∧ min_step ≤ st.steps
      · simp [goAdds, go, hpop, hterm]
      · by_cases hstale : ltSome (dlookup st.toKey d) st.cost = true
        · simp only [goAdds, go, hpop, hterm, if_false, hstale, if_true]
          exact ih _ _ _
        · simp only [Bool.not_eq_true] at hstale
          simp only [goAdds, go, hpop, hterm, if_false, hstale,
            Bool.false_eq_true]
          rw [relaxAdds_proj_d, relaxAdds_proj_h]
          exact ih _ _ _

/-- Each addition recorded by `relaxAdds` is the expanded state's cost plus
one entered cell's cost. -/
theorem relaxAdds_adds {g : Grid} {min_step max_step : Nat} {st : State} :
    ∀ {l : List (Direction × (Int × Int))} {d : List (Key × Nat)}
      {h : List State} {acc : List Nat} {v : Nat},
      v ∈ (relaxAdds g min_step max_step st l d h acc).2.2 →
      v ∈ acc ∨ ∃ p ∈ l, v = st.cost + g.cellCost p.2 := by
  intro l
  induction l with
  | nil =>
    intro d h acc v hv
    exact Or.inl hv
  | cons q rest ih =>
    intro d h acc v hv
    obtain ⟨nd, xy⟩ := q
    simp only [relaxAdds] at hv
    by_cases hr : rejectNext min_step max_step st d (mkNext g st nd xy) = true
    · simp only [hr, if_true] at hv
      rcases ih hv with hv | ⟨p, hp, hpv⟩
      · rcases List.mem_cons.1 hv with rfl | hv
        · exact Or.inr ⟨(nd, xy), List.mem_cons_self _ _, rfl⟩
        · exact Or.inl hv
      · exact Or.inr ⟨p, List.mem_cons_of_mem _ hp, hpv⟩
    · simp only [Bool.not_eq_true] at hr
      simp only [hr, Bool.false_eq_true, if_false] at hv
      rcases ih hv with hv | ⟨p, hp, hpv⟩
      · rcases List.mem_cons.1 hv with rfl | hv
        · exact Or.inr ⟨(nd, xy), List.mem_cons_self _ _, rfl⟩
        · exact Or.inl hv
      · exact Or.inr ⟨p, List.mem_cons_of_mem _ hp, hpv⟩

/-- Any addition computed anywhere in the search is at most `costBound`
(the largest cost a recorded state can carry) plus one more cell. -/
theorem goAdds_bound {g : Grid} {start endp : Int × Int}
    {min_step max_step : Nat} (hstart : g.contains start = true) :
    ∀ (fuel : Nat) (d : List (Key × Nat)) (h : List State) (acc : List Nat),
      SInv g start min_step max_step d h →
      (∀ v ∈ acc, v ≤ costBound g max_step + g.maxCell) →
      ∀ v ∈ (goAdds g endp min_step max_step fuel d h acc).2,
        v ≤ costBound g max_step + g.maxCell := by
  intro fuel
  induction fuel with
  | zero =>
    intro d h acc hi hacc v hv
    exact hacc v hv
  | succ n ih =>
    intro d h acc hi hacc v hv
    cases hpop : popMin h with
    | none =>
      simp only [goAdds, hpop] at hv
      exact hacc v hv
    | some q =>
      obtain ⟨st, h'⟩ := q
      by_cases hterm : st.coords = endp ∧ min_step ≤ st.steps
      · simp only [goAdds, hpop] at hv
        rw [if_pos hterm] at hv
        exact hacc v hv
      · by_cases hstale : ltSome (dlookup st.toKey d) st.cost = true
        · simp only [goAdds, hpop, hterm, if_false, hstale, if_true] at hv
          have hsub : ∀ s ∈ h', s ∈ h := fun s hs =>
            (popMin_perm hpop).mem_iff.2 (List.mem_cons_of_mem _ hs)
          exact ih d h' acc (hi.mono_heap hsub) hacc v hv
        · simp only [Bool.not_eq_true] at hstale
          simp only [goAdds, hpop, hterm, if_false, hstale,
            Bool.false_eq_true] at hv
          obtain ⟨hiF, hdec⟩ := sInv_step_expand hstart hi hpop hstale
          rw [relaxAdds_proj_d, relaxAdds_proj_h] at hv
          refine ih _ _ _ hiF ?_ v hv
          intro v1 hv1
          rcases relaxAdds_adds hv1 with hv1 | ⟨p, hp, hpv⟩
          · exact hacc v1 hv1
          · obtain ⟨lt, tst, hdom, hndt⟩ := hi.heap_trail st (popMin_mem hpop)
            have hstb : st.cost ≤ costBound g max_step :=
              Trail.cost_le_costBound hstart tst hndt
            have hcell := cellCost_le_maxCell g p.2
            omega

/-- The 3 by 4 all-nines grid of the C6 counterexample. -/
def gridC6 : Grid :=
  ⟨[[9, 9, 9], [9, 9, 9], [9, 9, 9], [9, 9, 9]]⟩

/-- Counterexample to C6 as stated: on the 3 by 4 all-nines grid (cell
costs at the maximum 9), start `(0,0)`, in-bounds end `(1,1)`,
`min_streak = 2 ≤ max_streak = 3`, the search computes the addition `126`,
which exceeds grid area times the maximum single-cell cost,
`12 * 9 = 108`. -/
theorem C6_counterexample :
    (126 ∈ searchAdds gridC6 (0, 0) (1, 1) 2 3) ∧
    gridC6.width * gridC6.points.length * 9 = 108 ∧ (108 : Nat) < 126 := by
  refine ⟨?_, by decide, by decide⟩
  decide

/-- C6 (amended): every addition `cost + cell` computed during the search
is bounded by `costBound + maxCell` — the maximum cell cost times the size
`width * height * 4 * (max_streak + 1)` of the expanded state space, plus
one more cell — rather than by grid area times 9; consequently the `u32`
arithmetic never wraps whenever that corrected bound fits below `2 ^ 32`. -/
theorem C6_additions_bounded (g : Grid) (start endp : Int × Int)
    (min_step max_step : Nat) (hstart : g.contains start = true) :
    (∀ v ∈ searchAdds g start endp min_step max_step,
      v ≤ costBound g max_step + g.maxCell) ∧
    (costBound g max_step + g.maxCell < 2 ^ 32 →
      ∀ v ∈ searchAdds g start endp min_step max_step, v < 2 ^ 32) := by
  have hb : ∀ v ∈ searchAdds g start endp min_step max_step,
      v ≤ costBound g max_step + g.maxCell := by
    intro v hv
    exact goAdds_bound hstart _ _ _ _ (sInv_init hstart)
      (fun v1 hv1 => absurd hv1 (List.not_mem_nil v1)) v hv
  refine ⟨hb, ?_⟩
  intro hlt v hv
  have := hb v hv
  omega

/-- Witness for the amended C6 on the 2 by 2 grid, at the addition `1`
computed when the first seed is expanded. -/
theorem C6_additions_bounded_witness :
    (1 : Nat) ≤ costBound grid2 1 + grid2.maxCell :=
  (C6_additions_bounded grid2 (0, 0) (1, 1) 1 1 (by decide)).1 1 (by decide)

end Day17
